import Mathlib

/-!
# Fun-entry registry (`erts/emulator/beam/erl_fun.c`) and module assembler
(`erts/emulator/beam/jit/beam_asm_module.cpp`)

Shallow embedding of the closure registry and of the emission and finalisation
code of the JIT module assembler, followed by the properties proved about them.

Conventions of the embedding

* A code address (`BeamInstr*`, `char*`) is a natural number; `NULL` is `0`.
* An `ErlFunEntry*` is the number of a slot.  `erts_fun_table` is a list of
  slots.  Slot `p` holds the `ErlFunEntry` object that pointer `p` refers to; a
  slot is `none` once the object has been freed.  New objects are placed in a
  fresh slot at the end, so a pointer value is never handed out twice.
* `erts_aint_t`, `int` and `Eterm` values that are only compared or counted are
  unbounded integers; words that are stored into the code buffer are reduced
  modulo `2 ^ 64` where the C code stores them.
* The reader/writer lock and the memory barriers have no effect on a sequential
  run and are left out.
-/

namespace ErlFun

/-! ## Data model -/

/-- The C null pointer. -/
def NULL : Nat := 0

/-- Closure entry, `ErlFunEntry` of `erl_fun.h`.  The hash-bucket header and the
HiPE-only fields are left out; `uniq` is the 16-byte digest `byte uniq[16]`. -/
structure ErlFunEntry where
  uniq : List Nat
  index : Int
  old_uniq : Int
  old_index : Int
  address : Nat
  arity : Nat
  module : Nat
  refc : Int
  pend_purge_address : Nat
deriving DecidableEq, Repr

/-- The table `erts_fun_table` together with the objects it owns: slot `p` is the
object at pointer `p`, `none` after `fun_free`. -/
abbrev Hash := List (Option ErlFunEntry)

/-- Reading through an `ErlFunEntry*`: the object at pointer `fe`, if it is live. -/
def deref (t : Hash) (fe : Nat) : Option ErlFunEntry :=
  match t[fe]? with
  | some (some obj) => some obj
  | _ => none

/-- Writing through an `ErlFunEntry*`: the fields of the object at `fe` are
replaced by `f` of them.  A pointer that refers to no live object leaves the
table as it is (the C behaviour is undefined there). -/
def modify (t : Hash) (fe : Nat) (f : ErlFunEntry → ErlFunEntry) : Hash :=
  match deref t fe with
  | some obj => t.set fe (some (f obj))
  | none => t

/-- Result of an operation that may leave through `erts_exit`: either it
returns with the table `t`, or the emulator is terminated while the table is `t`. -/
inductive Outcome where
  | returned (t : Hash)
  | erts_exit (t : Hash)
deriving DecidableEq, Repr

/-- The table an outcome carries. -/
def Outcome.table : Outcome → Hash
  | .returned t => t
  | .erts_exit t => t

/-! ## Reference-count primitive -/

/-- Modelled from the spec: the reference-count primitive "initialize-with-bias"
(`erts_refc_init`, declared outside the given sources). -/
def erts_refc_init (val : Int) : Int := val

/-- Modelled from the spec: the reference-count primitive "increment-and-test"
(`erts_refc_inctest`); the result is the new count, which is also the stored
one.  `min_val` is only looked at by debug builds. -/
def erts_refc_inctest (refc : Int) (_min_val : Int) : Int := refc + 1

/-- Modelled from the spec: plain increment of a reference count
(`erts_refc_inc`); the result is the stored count. -/
def erts_refc_inc (refc : Int) (_min_val : Int) : Int := refc + 1

/-- Modelled from the spec: the reference-count primitive "decrement-and-test"
(`erts_refc_dectest`); the result is the new count, which is also the stored
one. -/
def erts_refc_dectest (refc : Int) (_min_val : Int) : Int := refc - 1

/-! ## Hash callbacks -/

/-- `fun_cmp`: `0` exactly when module, `old_uniq` and `index` agree. -/
def fun_cmp (obj1 obj2 : ErlFunEntry) : Int :=
  if obj1.module = obj2.module ∧ obj1.old_uniq = obj2.old_uniq ∧ obj1.index = obj2.index
  then 0 else 1

/-- `fun_alloc`: a new object for `template`.  The C code leaves `uniq`,
`old_index` and `arity` uninitialised; they stand here with the template's
values and are overwritten by the only caller before they are read. -/
def fun_alloc (unloaded_fun : Nat) (template : ErlFunEntry) : ErlFunEntry :=
  { template with
    old_uniq := template.old_uniq
    index := template.index
    module := template.module
    refc := erts_refc_init (-1)
    address := unloaded_fun
    pend_purge_address := NULL }

/-! ## Generic hash table -/

/-- Modelled from the spec: `lookup` of the generic hash table (`hash_get` of
`hash.c`, which is not among the sources): the first stored object, counting
pointers from `p`, for which the equality callback `fun_cmp` answers `0`.  The
bucket an object sits in is a function of the compared fields only, so scanning
every stored object finds the same object as scanning its bucket. -/
def hash_find (tmpl : ErlFunEntry) : Nat → Hash → Option Nat
  | _, [] => none
  | p, none :: rest => hash_find tmpl (p + 1) rest
  | p, some b :: rest => if fun_cmp tmpl b = 0 then some p else hash_find tmpl (p + 1) rest

/-- Modelled from the spec: `lookup` of the generic hash table (`hash_get`). -/
def hash_get (t : Hash) (tmpl : ErlFunEntry) : Option Nat :=
  hash_find tmpl 0 t

/-- Modelled from the spec: `insert_or_get` of the generic hash table
(`hash_put`): the stored object equal to `tmpl`, or else a new object made by
the allocate callback `fun_alloc` and placed at a fresh pointer. -/
def hash_put (unloaded_fun : Nat) (t : Hash) (tmpl : ErlFunEntry) : Hash × Nat :=
  match hash_get t tmpl with
  | some p => (t, p)
  | none => (t ++ [some (fun_alloc unloaded_fun tmpl)], t.length)

/-- Modelled from the spec: `erase` of the generic hash table (`hash_erase`):
the stored object equal to `tmpl` is unlinked and handed to the free callback
`fun_free`. -/
def hash_erase (t : Hash) (tmpl : ErlFunEntry) : Hash :=
  match hash_get t tmpl with
  | some p => t.set p none
  | none => t

/-- Modelled from the spec: `for_each` of the generic hash table
(`hash_foreach`): `f` is applied to every stored object, with its pointer, and
threads the argument `arg` through. -/
def hash_foreach {σ : Type} (f : Nat → ErlFunEntry → σ → ErlFunEntry × σ) :
    Nat → Hash → σ → Hash × σ
  | _, [], arg => ([], arg)
  | p, none :: rest, arg =>
    let r := hash_foreach f (p + 1) rest arg
    (none :: r.1, r.2)
  | p, some obj :: rest, arg =>
    let r1 := f p obj arg
    let r := hash_foreach f (p + 1) rest r1.2
    (some r1.1 :: r.1, r.2)

/-! ## Registry operations -/

/-- The stack object `template` of `erts_put_fun_entry2` and
`erts_get_fun_entry`: only `old_uniq`, `index` and `module` are assigned; the
other fields are never read and stand here as zero. -/
def fun_template (mod : Nat) (old_uniq index : Int) : ErlFunEntry :=
  { uniq := [], index := index, old_uniq := old_uniq, old_index := 0, address := NULL,
    arity := 0, module := mod, refc := 0, pend_purge_address := NULL }

/-- `erts_put_fun_entry2`: look up or insert the entry for
`(mod, old_uniq, index)`, store `uniq`, `old_index` and `arity` in it, and
take a reference.  Returns the table and the pointer `fe`.  (The debug-only
`ASSERT(is_atom(mod))` is left out; `arity` is an `int` stored into a `Uint`.) -/
def erts_put_fun_entry2 (unloaded_fun : Nat) (t : Hash) (mod : Nat) (old_uniq old_index : Int)
    (uniq : List Nat) (index arity : Int) : Hash × Nat :=
  let template := fun_template mod old_uniq index
  let r := hash_put unloaded_fun t template
  let fe := r.2
  let t1 := modify r.1 fe (fun obj =>
    let obj1 := { obj with uniq := uniq, old_index := old_index,
                           arity := (arity % 2 ^ 64).toNat }
    let refc := erts_refc_inctest obj1.refc 0
    if refc < 2 then { obj1 with refc := erts_refc_inc refc 1 }
    else { obj1 with refc := refc })
  (t1, fe)

/-- `erts_get_fun_entry`: look up the entry for `(mod, uniq, index)`; when it
exists a reference is taken.  Returns the table and the pointer, `none` for
the C `NULL`. -/
def erts_get_fun_entry (t : Hash) (mod : Nat) (uniq index : Int) : Hash × Option Nat :=
  let template := fun_template mod uniq index
  match hash_get t template with
  | some ret =>
    (modify t ret (fun obj =>
      let refc := erts_refc_inctest obj.refc 1
      if refc < 2 then { obj with refc := erts_refc_inc refc 1 }
      else { obj with refc := refc }), some ret)
  | none => (t, none)

/-- `erts_erase_fun_entry_unlocked`. -/
def erts_erase_fun_entry_unlocked (t : Hash) (fe : ErlFunEntry) : Hash :=
  hash_erase t fe

/-- `erts_erase_fun_entry`: drop a reference under the write lock; at zero or
below the entry is erased, unless its address is not `unloaded_fun`, in which
case the emulator exits.  A pointer `fe` to no live object leaves the table as
it is (the C behaviour is undefined there). -/
def erts_erase_fun_entry (unloaded_fun : Nat) (t : Hash) (fe : Nat) : Outcome :=
  match deref t fe with
  | none => .returned t
  | some obj =>
    let refc := erts_refc_dectest obj.refc (-1)
    let obj1 := { obj with refc := refc }
    let t1 := t.set fe (some obj1)
    if refc ≤ 0 then
      if obj1.address ≠ unloaded_fun then .erts_exit t1
      else .returned (erts_erase_fun_entry_unlocked t1 obj1)
    else .returned t1

/-! ## Purge protocol -/

/-- Argument record of `fun_purge_foreach`: the half-open address range
`[start, end)`. -/
structure fun_purge_foreach_args where
  start : Nat
  end_ : Nat
deriving DecidableEq, Repr

/-- `erts_purge_state_add_fun` (defined by the code loader): the entry is
recorded in the purge state, here the list of flagged pointers. -/
def erts_purge_state_add_fun (funs : List Nat) (fe : Nat) : List Nat :=
  funs ++ [fe]

/-- `fun_purge_foreach`: an entry whose address lies in the range has the
address saved in `pend_purge_address`, is pointed at `unloaded_fun`, and is
recorded in the purge state. -/
def fun_purge_foreach (unloaded_fun : Nat) (arg : fun_purge_foreach_args) (fe : Nat)
    (obj : ErlFunEntry) (funs : List Nat) : ErlFunEntry × List Nat :=
  let addr := obj.address
  if arg.start ≤ addr ∧ addr < arg.end_ then
    ({ obj with pend_purge_address := addr, address := unloaded_fun },
      erts_purge_state_add_fun funs fe)
  else (obj, funs)

/-- `erts_fun_purge_prepare`: run `fun_purge_foreach` over the whole table.
Returns the table and the pointers recorded in the purge state. -/
def erts_fun_purge_prepare (unloaded_fun : Nat) (t : Hash) (start end_ : Nat) :
    Hash × List Nat :=
  let args : fun_purge_foreach_args := { start := start, end_ := end_ }
  hash_foreach (fun_purge_foreach unloaded_fun args) 0 t []

/-- `erts_fun_purge_abort_prepare`: every listed entry whose address is
`unloaded_fun` gets its address back from `pend_purge_address`. -/
def erts_fun_purge_abort_prepare (unloaded_fun : Nat) (t : Hash) (funs : List Nat) : Hash :=
  funs.foldl (fun t fe =>
    modify t fe (fun obj =>
      if obj.address = unloaded_fun then { obj with address := obj.pend_purge_address }
      else obj)) t

/-- `erts_fun_purge_abort_finalize`: `pend_purge_address` of every listed entry
is set to `NULL`. -/
def erts_fun_purge_abort_finalize (t : Hash) (funs : List Nat) : Hash :=
  funs.foldl (fun t fe => modify t fe (fun obj => { obj with pend_purge_address := NULL })) t

/-- `erts_fun_purge_complete`: for every listed entry `pend_purge_address` is
set to `NULL` and the reference held by the purged code is dropped; when that
leaves the count at `0` the entry is handed to `erts_erase_fun_entry`.  A listed
pointer to no live object is passed over (the C behaviour is undefined there). -/
def erts_fun_purge_complete (unloaded_fun : Nat) : Hash → List Nat → Outcome
  | t, [] => .returned t
  | t, fe :: funs =>
    match deref t fe with
    | none => erts_fun_purge_complete unloaded_fun t funs
    | some obj =>
      let refc := erts_refc_dectest obj.refc 0
      let t1 := t.set fe (some { obj with pend_purge_address := NULL, refc := refc })
      if refc = 0 then
        match erts_erase_fun_entry unloaded_fun t1 fe with
        | .returned t2 => erts_fun_purge_complete unloaded_fun t2 funs
        | .erts_exit t2 => .erts_exit t2
      else erts_fun_purge_complete unloaded_fun t1 funs

/-! ## Registry invariant and runs -/

/-- Two slots do not hold entries that `fun_cmp` takes for the same. -/
def distinct_identity : Option ErlFunEntry → Option ErlFunEntry → Prop
  | some a, some b => fun_cmp a b ≠ 0
  | _, _ => True

instance distinct_identity_decidable (a b : Option ErlFunEntry) :
    Decidable (distinct_identity a b) :=
  match a, b with
  | some x, some y => inferInstanceAs (Decidable (fun_cmp x y ≠ 0))
  | none, _ => isTrue trivial
  | some _, none => isTrue trivial

/-- Registry invariant: no two live entries have the same identity
`(module, old_uniq, index)`. -/
def fun_table_inv (t : Hash) : Prop :=
  t.Pairwise distinct_identity

instance fun_table_inv_decidable (t : Hash) : Decidable (fun_table_inv t) :=
  inferInstanceAs (Decidable (t.Pairwise distinct_identity))

/-- One call of a registry operation, taking the table from `t` to `t'`.  A call
that ends in `erts_exit` is a step to the table at the exit. -/
inductive Step (unloaded_fun : Nat) : Hash → Hash → Prop
  | put (t : Hash) (mod : Nat) (old_uniq old_index : Int) (uniq : List Nat) (index arity : Int) :
      Step unloaded_fun t
        (erts_put_fun_entry2 unloaded_fun t mod old_uniq old_index uniq index arity).1
  | get (t : Hash) (mod : Nat) (uniq index : Int) :
      Step unloaded_fun t (erts_get_fun_entry t mod uniq index).1
  | erase (t : Hash) (fe : Nat) :
      Step unloaded_fun t (erts_erase_fun_entry unloaded_fun t fe).table
  | purge_prepare (t : Hash) (start end_ : Nat) :
      Step unloaded_fun t (erts_fun_purge_prepare unloaded_fun t start end_).1
  | purge_abort_prepare (t : Hash) (funs : List Nat) :
      Step unloaded_fun t (erts_fun_purge_abort_prepare unloaded_fun t funs)
  | purge_abort_finalize (t : Hash) (funs : List Nat) :
      Step unloaded_fun t (erts_fun_purge_abort_finalize t funs)
  | purge_complete (t : Hash) (funs : List Nat) :
      Step unloaded_fun t (erts_fun_purge_complete unloaded_fun t funs).table

/-- Tables reachable from the empty table of `erts_init_fun_table` by registry
operations. -/
inductive Reachable (unloaded_fun : Nat) : Hash → Prop
  | init : Reachable unloaded_fun []
  | step {t t' : Hash} : Reachable unloaded_fun t → Step unloaded_fun t t' →
      Reachable unloaded_fun t'

/-- Entries `a` and `b` have the same identity `(module, old_uniq, index)`. -/
def same_identity (a b : ErlFunEntry) : Prop :=
  a.module = b.module ∧ a.old_uniq = b.old_uniq ∧ a.index = b.index

instance same_identity_decidable (a b : ErlFunEntry) : Decidable (same_identity a b) :=
  inferInstanceAs (Decidable (_ ∧ _ ∧ _))

/-- Every live entry of `t'` is, at the same pointer, a live entry of `t` with
the same identity: going from `t` to `t'` neither adds an entry nor changes an
identity. -/
def keeps_identity (t t' : Hash) : Prop :=
  ∀ p obj', deref t' p = some obj' → ∃ obj, deref t p = some obj ∧ same_identity obj obj'

/-- What `erts_put_fun_entry2` writes into the entry it found or made: the three
stored fields and the raised count. -/
def put_update (uniq : List Nat) (old_index arity : Int) (obj : ErlFunEntry) : ErlFunEntry :=
  { obj with
    uniq := uniq
    old_index := old_index
    arity := (arity % 2 ^ 64).toNat
    refc := if obj.refc + 1 < 2 then obj.refc + 1 + 1 else obj.refc + 1 }

/-- What `erts_get_fun_entry` writes into the entry it found: the raised count. -/
def get_update (obj : ErlFunEntry) : ErlFunEntry :=
  { obj with refc := if obj.refc + 1 < 2 then obj.refc + 1 + 1 else obj.refc + 1 }

/-- What `fun_purge_foreach` does to one entry for the range `[start, end_)`. -/
def purge_update (unloaded_fun start end_ : Nat) (obj : ErlFunEntry) : ErlFunEntry :=
  if start ≤ obj.address ∧ obj.address < end_ then
    { obj with pend_purge_address := obj.address, address := unloaded_fun }
  else obj

/-- What `erts_fun_purge_abort_prepare` does to one listed entry. -/
def abort_update (unloaded_fun : Nat) (obj : ErlFunEntry) : ErlFunEntry :=
  if obj.address = unloaded_fun then { obj with address := obj.pend_purge_address } else obj

/-- What `erts_fun_purge_abort_finalize` does to one listed entry. -/
def finalize_update (obj : ErlFunEntry) : ErlFunEntry :=
  { obj with pend_purge_address := NULL }

/-! ## Sequences of calls on one identity -/

/-- One call made by a holder of references to the entry of a fixed identity:
`erts_put_fun_entry2` (with the fields it stores), `erts_get_fun_entry`, or
`erts_erase_fun_entry` on the pointer the holder got from a creation. -/
inductive FunOp where
  | put (old_index : Int) (uniq : List Nat) (arity : Int)
  | get
  | erase
deriving DecidableEq, Repr

/-- The call is a creation (`erts_put_fun_entry2` or `erts_get_fun_entry`). -/
def FunOp.is_creation : FunOp → Bool
  | .put _ _ _ => true
  | .get => true
  | .erase => false

/-- The call is a release (`erts_erase_fun_entry`). -/
def FunOp.is_release : FunOp → Bool
  | .erase => true
  | _ => false

/-- Number of creations in `ops`. -/
def creations (ops : List FunOp) : Nat := ops.countP FunOp.is_creation

/-- Number of releases in `ops`. -/
def releases (ops : List FunOp) : Nat := ops.countP FunOp.is_release

/-- Creations minus releases. -/
def owners (ops : List FunOp) : Int := (creations ops : Int) - (releases ops : Int)

/-- After every call of `ops` the number of creations so far minus the number of
releases so far is at least `1`. -/
def stays_positive (ops : List FunOp) : Prop :=
  ∀ k, 1 ≤ k → k ≤ ops.length → 1 ≤ owners (ops.take k)

/-- Run `ops` one after the other on the identity `(mod, old_uniq, index)`.
`held` is the pointer the creations have returned so far, which is the one the
releases are made on. -/
def run_ops (unloaded_fun : Nat) (mod : Nat) (old_uniq index : Int) :
    Hash → Option Nat → List FunOp → Outcome
  | t, _, [] => .returned t
  | t, _, .put old_index uniq arity :: ops =>
    let r := erts_put_fun_entry2 unloaded_fun t mod old_uniq old_index uniq index arity
    run_ops unloaded_fun mod old_uniq index r.1 (some r.2) ops
  | t, held, .get :: ops =>
    let r := erts_get_fun_entry t mod old_uniq index
    match r.2 with
    | some fe => run_ops unloaded_fun mod old_uniq index r.1 (some fe) ops
    | none => run_ops unloaded_fun mod old_uniq index r.1 held ops
  | t, some fe, .erase :: ops =>
    match erts_erase_fun_entry unloaded_fun t fe with
    | .returned t1 => run_ops unloaded_fun mod old_uniq index t1 (some fe) ops
    | .erts_exit t1 => .erts_exit t1
  | t, none, .erase :: ops => run_ops unloaded_fun mod old_uniq index t none ops

/-- The table holds exactly one live entry with the identity
`(mod, old_uniq, index)`, and its reference count is `n`. -/
def one_entry_with_count (t : Hash) (mod : Nat) (old_uniq index : Int) (n : Int) : Prop :=
  ∃ fe obj, deref t fe = some obj ∧
    obj.module = mod ∧ obj.old_uniq = old_uniq ∧ obj.index = index ∧ obj.refc = n ∧
    ∀ q b, deref t q = some b →
      b.module = mod ∧ b.old_uniq = old_uniq ∧ b.index = index → q = fe

end ErlFun

/-! # Module assembler: embedding of `beam_asm_module.cpp` -/

namespace BeamAsm

/-! ## Code holder and emitter -/

/-- `sizeof(UWord)` on the 64-bit targets of the JIT. -/
def sizeof_UWord : Nat := 8

/-- `LLONG_MAX`, the placeholder a word patch holds until it is resolved. -/
def LLONG_MAX : Nat := 2 ^ 63 - 1

/-- The two sections the assembler emits into: `code.textSection()` and
`rodata`. -/
inductive SectionId where
  | text
  | rodata
deriving DecidableEq, Repr

/-- An asmjit `Label`: `none` is the invalid label a default-constructed `Label`
is, `some id` is the label with that id. -/
abbrev Label := Option Nat

/-- Modelled from the spec: the in-progress machine-code buffer and the label
table of the module assembly context (asmjit's `CodeHolder`, which is not among
the sources).  Each section is the list of bytes emitted into it so far; entry
`id` of `labelEntries` is `none` while the label is unbound and the section and
offset it was bound at afterwards.  `baseAddress` is the address the finalised
block is placed at. -/
structure CodeHolder where
  baseAddress : Nat
  text : List Nat
  rodata : List Nat
  labelEntries : List (Option (SectionId × Nat))
deriving DecidableEq, Repr

/-- Patch record `struct patch` of `beam_asm.hpp`: the label and byte offset of
the placeholder, and the adjustment added to the final value. -/
structure patch where
  where_ : Label
  ptr_offs : Int
  val_offs : Int
deriving DecidableEq, Repr

/-- The fields of `BeamModuleAssembler` (and of its base `BeamAssembler`) that the
embedded functions use.  `cur` is the section the emitter `a` is switched to.
The `std::unordered_map`s are association lists keyed by index. -/
structure BeamModuleAssembler where
  code : CodeHolder
  cur : SectionId
  mod : Nat
  labels : List (Nat × Label)
  functions : List Nat
  currLabel : Label
  on_load : Label
  codeHeader : Label
  funcInfo : Label
  genericBPTramp : Label
  last_error_offset : Nat
  imports : List (Nat × List patch)
  lambdas : List (Nat × List patch)
  literals : List (Nat × List patch)
  catches : List (patch × Label)
  strings : List patch
deriving DecidableEq, Repr

/-- `std::unordered_map::operator[]` used for reading: the mapped value, a
default-constructed one when the key is missing. -/
def umap_get {β : Type} (m : List (Nat × β)) (k : Nat) (dflt : β) : β :=
  match m.find? (fun e => e.1 == k) with
  | some e => e.2
  | none => dflt

/-- `std::unordered_map::operator[]`, the map afterwards: a missing key has been
inserted with a default-constructed value. -/
def umap_touch {β : Type} (m : List (Nat × β)) (k : Nat) (dflt : β) : List (Nat × β) :=
  match m.find? (fun e => e.1 == k) with
  | some _ => m
  | none => m ++ [(k, dflt)]

/-- `m[k] = v` on a `std::unordered_map`. -/
def umap_set {β : Type} (m : List (Nat × β)) (k : Nat) (v : β) : List (Nat × β) :=
  match m.find? (fun e => e.1 == k) with
  | some _ => m.map (fun e => if e.1 == k then (k, v) else e)
  | none => m ++ [(k, v)]

/-- Modelled from the spec: `a.offset()`, the number of bytes emitted so far into
the section the emitter is switched to. -/
def a_offset (s : BeamModuleAssembler) : Nat :=
  match s.cur with
  | .text => s.code.text.length
  | .rodata => s.code.rodata.length

/-- Modelled from the spec: `a.embed(data, size)`, the bytes are appended to the
current section. -/
def a_embed (s : BeamModuleAssembler) (bytes : List Nat) : BeamModuleAssembler :=
  match s.cur with
  | .text => { s with code := { s.code with text := s.code.text ++ bytes } }
  | .rodata => { s with code := { s.code with rodata := s.code.rodata ++ bytes } }

/-- Modelled from the spec: `a.section(sec)`, the emitter switches section. -/
def a_section (s : BeamModuleAssembler) (sec : SectionId) : BeamModuleAssembler :=
  { s with cur := sec }

/-- Modelled from the spec: `allocate_label()` (`a.newLabel()`, also
`a.newNamedLabel`): a fresh label with no offset bound yet. -/
def a_newLabel (s : BeamModuleAssembler) : BeamModuleAssembler × Label :=
  ({ s with code := { s.code with labelEntries := s.code.labelEntries ++ [none] } },
    some s.code.labelEntries.length)

/-- Modelled from the spec: `bind(label, offset)` (`a.bind(label)`): an unbound
label is fixed at the current offset of the current section.  Binding an invalid
or an already bound label is an error that asmjit reports to the error handler;
the table is left as it is. -/
def a_bind (s : BeamModuleAssembler) (label : Label) : BeamModuleAssembler :=
  match label with
  | none => s
  | some id =>
    match s.code.labelEntries[id]? with
    | some none =>
      { s with code := { s.code with
          labelEntries := s.code.labelEntries.set id (some (s.cur, a_offset s)) } }
    | _ => s

/-- Modelled from the spec: `a.align(kAlignCode, n)`: the current section is
filled with one-byte no-ops (`0x90`) up to the next multiple of `n`. -/
def a_align (s : BeamModuleAssembler) (n : Nat) : BeamModuleAssembler :=
  a_embed s (List.replicate ((n - a_offset s % n) % n) 0x90)

/-- Modelled from the spec: `a.nop()`, the one-byte no-op. -/
def a_nop (s : BeamModuleAssembler) : BeamModuleAssembler :=
  a_embed s [0x90]

/-- Modelled from the spec: `a.call(label)`, a five-byte relative call whose
displacement is filled in when the label is resolved. -/
def a_call (s : BeamModuleAssembler) (_label : Label) : BeamModuleAssembler :=
  a_embed s [0xE8, 0, 0, 0, 0]

/-- The eight bytes of a 64-bit word, least significant first. -/
def le64 (w : Nat) : List Nat :=
  (List.range 8).map (fun i => (w / 256 ^ i) % 256)

/-- Round `x` up to a multiple of `n`. -/
def alignUp (x n : Nat) : Nat := (x + n - 1) / n * n

/-- Modelled from the spec: where a section starts in the flattened block.  The
text section is first; a non-empty `rodata` follows it at the next multiple of
its alignment `8`. -/
def section_offset (c : CodeHolder) : SectionId → Nat
  | .text => 0
  | .rodata => if c.rodata.length = 0 then c.text.length else alignUp c.text.length 8

/-- Modelled from the spec: `code.codeSize()`, the total size of the flattened
block: the text section followed by the `rodata` section. -/
def codeSize (c : CodeHolder) : Nat :=
  if c.rodata.length = 0 then c.text.length else alignUp c.text.length 8 + c.rodata.length

/-- Modelled from the spec: `code.labelOffsetFromBase(label)`, the offset of the
label's section plus the offset the label was bound at; `0` for a label that is
not bound. -/
def labelOffsetFromBase (c : CodeHolder) (label : Label) : Nat :=
  match label with
  | none => 0
  | some id =>
    match c.labelEntries[id]? with
    | some (some (sec, off)) => section_offset c sec + off
    | _ => 0

/-- `getCode(Label)` of `beam_asm.hpp`: base address plus the label's offset. -/
def getCodeLabel (s : BeamModuleAssembler) (label : Label) : Nat :=
  s.code.baseAddress + labelOffsetFromBase s.code label

/-- `BeamModuleAssembler::getCode(unsigned label)`. -/
def getCode (s : BeamModuleAssembler) (label : Nat) : Nat :=
  getCodeLabel s (umap_get s.labels label none)

/-! ## Construction and emission -/

/-- The base-class constructor `BeamAssembler(name)` of `beam_asm.hpp`: an empty
code holder with the emitter attached to the text section. -/
def BeamAssembler_init (mod : Nat) : BeamModuleAssembler :=
  { code := { baseAddress := 0, text := [], rodata := [], labelEntries := [] }
    cur := .text
    mod := mod
    labels := []
    functions := []
    currLabel := none
    on_load := none
    codeHeader := none
    funcInfo := none
    genericBPTramp := none
    last_error_offset := 0
    imports := []
    lambdas := []
    literals := []
    catches := []
    strings := [] }

/-- `BeamModuleAssembler::BeamModuleAssembler(ga, mod, num_labels)`: after the
base-class constructor, `labels[i] = a.newLabel()` for `i = 1, ..., num_labels - 1`
(the loop `for (i = 1; i < num_labels; i++)`). -/
def BeamModuleAssembler.new (mod : Nat) (num_labels : Nat) : BeamModuleAssembler :=
  (List.range' 1 (num_labels - 1)).foldl
    (fun s i =>
      let r := a_newLabel s
      { r.1 with labels := umap_set r.1.labels i r.2 })
    (BeamAssembler_init mod)

/-- `buf_size` of `BeamAssembler::embed_zeros`. -/
def buf_size : Nat := 16384

/-- `BeamAssembler::embed_zeros`: zero bytes in chunks of `buf_size`. -/
def embed_zeros (s : BeamModuleAssembler) (size : Nat) : BeamModuleAssembler :=
  if _ : size ≥ buf_size then
    embed_zeros (a_embed s (List.replicate buf_size 0)) (size - buf_size)
  else if size > 0 then a_embed s (List.replicate size 0)
  else s
termination_by size
decreasing_by
  have hpos : 0 < buf_size := by decide
  exact Nat.sub_lt (Nat.lt_of_lt_of_le hpos (by assumption)) hpos

/-- `BeamAssembler::embed_rodata(labelName, buff, size)`. -/
def embed_rodata (s : BeamModuleAssembler) (buff : List Nat) : BeamModuleAssembler :=
  let r := a_newLabel s
  let s1 := a_section r.1 .rodata
  let s2 := a_bind s1 r.2
  let s3 := a_embed s2 buff
  a_section s3 .text

/-- `BeamAssembler::embed_bss(labelName, size)`. -/
def embed_bss (s : BeamModuleAssembler) (size : Nat) : BeamModuleAssembler :=
  let r := a_newLabel s
  let s1 := a_section r.1 .rodata
  let s2 := a_bind s1 r.2
  let s3 := embed_zeros s2 size
  a_section s3 .text

/-- `BeamModuleAssembler::emit_i_func_info(Label, Module, Function, Arity)`: the
label number is pushed onto `functions` and the `ErtsCodeInfo` header is
emitted. -/
def emit_i_func_info (s : BeamModuleAssembler) (Label Module Function Arity : Nat) :
    BeamModuleAssembler :=
  let s1 := { s with functions := s.functions ++ [Label] }
  let s2 := if s1.funcInfo.isSome then a_call s1 s1.funcInfo else a_nop s1
  let s3 := a_align s2 sizeof_UWord
  let s4 := a_embed s3 (le64 0)
  a_embed s4 (le64 Module ++ le64 Function ++ le64 Arity)

/-- `BeamModuleAssembler::emit_label(Label)`. -/
def emit_label (s : BeamModuleAssembler) (Label : Nat) : BeamModuleAssembler :=
  let s1 := { s with
    labels := umap_touch s.labels Label none
    currLabel := umap_get s.labels Label none }
  a_bind s1 s1.currLabel

/-- `BeamModuleAssembler::emit_aligned_label(Label)`. -/
def emit_aligned_label (s : BeamModuleAssembler) (Label : Nat) : BeamModuleAssembler :=
  emit_label (a_align s 8) Label

/-- `BeamModuleAssembler::emit_on_load()`. -/
def emit_on_load (s : BeamModuleAssembler) : BeamModuleAssembler :=
  { s with on_load := s.currLabel }

/-- `BeamModuleAssembler::emit_nyi(msg)`: the call into `i_emit_nyi`, whose
machine code `nyi` comes from emitters that are not among the sources. -/
def emit_nyi (s : BeamModuleAssembler) (nyi : List Nat) : BeamModuleAssembler :=
  a_embed s nyi

/-- `BeamModuleAssembler::emit_int_code_end()`: one more label, numbered
`labels.size() + 1`, is made and bound at the end of the last function. -/
def emit_int_code_end (s : BeamModuleAssembler) (nyi : List Nat) : BeamModuleAssembler :=
  let r := a_newLabel s
  let s1 := { r.1 with labels := umap_set r.1.labels (r.1.labels.length + 1) r.2 }
  let s2 := a_bind { s1 with labels := umap_touch s1.labels s1.labels.length none }
    (umap_get s1.labels s1.labels.length none)
  emit_nyi s2 nyi

/-- One emission while a module is assembled: the emitters of
`beam_asm_module.cpp` that write code, data or labels, and `other` for the code
of any other instruction, whose bytes go to the text section. -/
inductive Emit where
  | i_func_info (Label Module Function Arity : Nat)
  | label (Label : Nat)
  | aligned_label (Label : Nat)
  | on_load
  | int_code_end (nyi : List Nat)
  | rodata (buff : List Nat)
  | bss (size : Nat)
  | zeros (size : Nat)
  | other (bytes : List Nat)
deriving DecidableEq, Repr

/-- Perform one emission. -/
def Emit.run (s : BeamModuleAssembler) : Emit → BeamModuleAssembler
  | .i_func_info l m f a => emit_i_func_info s l m f a
  | .label l => emit_label s l
  | .aligned_label l => emit_aligned_label s l
  | .on_load => emit_on_load s
  | .int_code_end nyi => emit_int_code_end s nyi
  | .rodata buff => embed_rodata s buff
  | .bss size => embed_bss s size
  | .zeros size => embed_zeros s size
  | .other bytes => a_embed s bytes

/-- Assemble: perform the emissions in order. -/
def assemble (s : BeamModuleAssembler) (ops : List Emit) : BeamModuleAssembler :=
  ops.foldl Emit.run s

/-- The label numbers passed to `emit_i_func_info`, in emission order. -/
def func_info_labels : List Emit → List Nat
  | [] => []
  | .i_func_info l _ _ _ :: ops => l :: func_info_labels ops
  | _ :: ops => func_info_labels ops

/-! ## Finalisation -/

/-- `BeamCodeHeader`: the function table `functions[]`, the on-load pointer, and
the remaining fixed fields, which the assembler only copies. -/
structure BeamCodeHeader where
  fields : List Nat
  on_load_function_ptr : Nat
  functions : Nat → Nat

/-- Modelled from the spec: `_codegen()` of `beam_asm.hpp`, "flattens the buffer
... copies the flattened bytes into an executable memory region": the block is
placed at the address `base` that the allocator hands out, and that address is
the module pointer. -/
def _codegen (s : BeamModuleAssembler) (base : Nat) : BeamModuleAssembler × Nat :=
  ({ s with code := { s.code with baseAddress := base } }, base)

/-- `BeamModuleAssembler::codegen()`: `_codegen()`, then the address ranges are
reported to gdb and perf, which changes nothing in the assembler or the code. -/
def codegen (s : BeamModuleAssembler) (base : Nat) : BeamModuleAssembler × Nat :=
  _codegen s base

/-- `BeamModuleAssembler::getOnLoad()`. -/
def getOnLoad (s : BeamModuleAssembler) : Nat :=
  if s.on_load.isSome then getCodeLabel s s.on_load else 0

/-- `BeamModuleAssembler::codegen(in_hdr, out_hdr)`: returns the assembler, the
module pointer and the header `*out_hdr` points at.  The header lies in the
code block, in the zero-filled area the four-argument constructor reserves;
`sys_memcpy` copies `sizeof(BeamCodeHeader)` bytes of `in_hdr` over it, which
reach up to and including `functions[0]`. -/
def codegen_hdr (s : BeamModuleAssembler) (base : Nat) (in_hdr : BeamCodeHeader) :
    BeamModuleAssembler × Nat × BeamCodeHeader :=
  let r := codegen s base
  let s1 := r.1
  let code_hdr0 : BeamCodeHeader :=
    { fields := in_hdr.fields
      on_load_function_ptr := in_hdr.on_load_function_ptr
      functions := fun i => if i = 0 then in_hdr.functions 0 else 0 }
  let code_hdr1 := { code_hdr0 with on_load_function_ptr := getOnLoad s1 }
  let code_hdr2 := (List.range s1.functions.length).foldl
    (fun hdr i =>
      { hdr with functions := Function.update hdr.functions i (getCode s1 (s1.functions.getD i 0)) })
    code_hdr1
  let module_end := s1.code.baseAddress + a_offset s1
  let code_hdr3 :=
    { code_hdr2 with functions := Function.update code_hdr2.functions s1.functions.length module_end }
  (s1, r.2, code_hdr3)

/-! ## Resolving patches -/

/-- The code block in memory: the byte at each address. -/
abbrev Mem := Nat → Nat

/-- Read the 64-bit word at address `a`, least significant byte first. -/
def read64 (mem : Mem) (a : Nat) : Nat :=
  mem a + 256 * (mem (a + 1) + 256 * (mem (a + 2) + 256 * (mem (a + 3) + 256 * (mem (a + 4) +
    256 * (mem (a + 5) + 256 * (mem (a + 6) + 256 * mem (a + 7)))))))

/-- Store the 64-bit word `w` at address `a`, least significant byte first. -/
def write64 (mem : Mem) (a : Nat) (w : Nat) : Mem :=
  fun x => if a ≤ x ∧ x < a + 8 then (w / 256 ^ (x - a)) % 256 else mem x

/-- The address `pp + patch.ptr_offs` a patch record points at. -/
def patch_location (s : BeamModuleAssembler) (p : patch) : Nat :=
  ((getCodeLabel s p.where_ : Int) + p.ptr_offs).toNat

/-- The loop body shared by `patchImport`, `patchLambda` and `patchLiteral`, run
over the patch records of one index: `ASSERT(LLONG_MAX == *where)`, which only
debug builds (`DEBUG`) check and which ends the run with `none` when it fails,
then `*where = I + patch.val_offs` in 64-bit arithmetic. -/
def patch_words (DEBUG : Bool) (s : BeamModuleAssembler) (I : Nat) :
    List patch → Mem → Option Mem
  | [], mem => some mem
  | p :: rest, mem =>
    let where_ := patch_location s p
    if DEBUG = true ∧ LLONG_MAX ≠ read64 mem where_ then none
    else patch_words DEBUG s I rest (write64 mem where_ (((I : Int) + p.val_offs) % 2 ^ 64).toNat)

/-- `BeamModuleAssembler::patchImport(index, I)`. -/
def patchImport (DEBUG : Bool) (s : BeamModuleAssembler) (mem : Mem) (index I : Nat) :
    Option (BeamModuleAssembler × Mem) :=
  (patch_words DEBUG s I (umap_get s.imports index []) mem).map
    (fun mem' => ({ s with imports := umap_touch s.imports index [] }, mem'))

/-- `BeamModuleAssembler::patchLambda(index, I)`. -/
def patchLambda (DEBUG : Bool) (s : BeamModuleAssembler) (mem : Mem) (index I : Nat) :
    Option (BeamModuleAssembler × Mem) :=
  (patch_words DEBUG s I (umap_get s.lambdas index []) mem).map
    (fun mem' => ({ s with lambdas := umap_touch s.lambdas index [] }, mem'))

/-- `BeamModuleAssembler::patchLiteral(index, lit)`. -/
def patchLiteral (DEBUG : Bool) (s : BeamModuleAssembler) (mem : Mem) (index lit : Nat) :
    Option (BeamModuleAssembler × Mem) :=
  (patch_words DEBUG s lit (umap_get s.literals index []) mem).map
    (fun mem' => ({ s with literals := umap_touch s.literals index [] }, mem'))

/-- The word `I + patch.val_offs` as the 64-bit store keeps it. -/
def patch_value (I : Nat) (p : patch) : Nat :=
  (((I : Int) + p.val_offs) % 2 ^ 64).toNat

/-- The recorded locations of `ps` are pairwise non-overlapping eight-byte
words, and each still holds the placeholder `LLONG_MAX`. -/
def placeholders_intact (s : BeamModuleAssembler) (mem : Mem) (ps : List patch) : Prop :=
  ps.Pairwise (fun p q =>
      patch_location s p + 8 ≤ patch_location s q ∨
      patch_location s q + 8 ≤ patch_location s p) ∧
    ∀ p, p ∈ ps → read64 mem (patch_location s p) = LLONG_MAX

/-- `mem'` is `mem` with the word at each recorded location of `ps` replaced by
the final value `v` plus the record's adjustment, and nothing else changed. -/
def resolved (s : BeamModuleAssembler) (mem : Mem) (ps : List patch) (v : Nat) (mem' : Mem) :
    Prop :=
  (∀ p, p ∈ ps → ∀ i, i < 8 →
      mem' (patch_location s p + i) = patch_value v p / 256 ^ i % 256) ∧
    (∀ p, p ∈ ps → read64 mem' (patch_location s p) = patch_value v p) ∧
    (∀ x, (∀ p, p ∈ ps → x < patch_location s p ∨ patch_location s p + 8 ≤ x) →
      mem' x = mem x) ∧
    (ps = [] → mem' = mem)

/-- The assembler `s'` records the same patches as `s`, for every index of every
category. -/
def same_patch_lists (s s' : BeamModuleAssembler) : Prop :=
  (∀ k, umap_get s'.imports k [] = umap_get s.imports k []) ∧
    (∀ k, umap_get s'.lambdas k [] = umap_get s.lambdas k []) ∧
    (∀ k, umap_get s'.literals k [] = umap_get s.literals k []) ∧
    s'.catches = s.catches ∧ s'.strings = s.strings

/-- The label table has an entry with a valid label for the label number `i`. -/
def label_allocated (s : BeamModuleAssembler) (i : Nat) : Bool :=
  (umap_get s.labels i none).isSome

/-- The label table with the labels `1, ..., k`, label number `i` being the
`i - 1`-th label of the code holder. -/
def label_table (k : Nat) : List (Nat × Label) :=
  (List.range' 1 k).map (fun i => (i, some (i - 1)))

/-- `BeamModuleAssembler::emit_i_nif_padding()`.  `BEAM_NATIVE_MIN_FUNC_SZ` is a
macro defined outside the given sources and is a parameter here.  `diff` is a
`size_t`, so the subtraction is taken modulo `2 ^ 64`.  (`functions.back()` of an
empty vector is undefined in C++; it stands as `0` here.) -/
def emit_i_nif_padding (BEAM_NATIVE_MIN_FUNC_SZ : Nat) (s : BeamModuleAssembler) :
    BeamModuleAssembler :=
  let minimum_size := sizeof_UWord * BEAM_NATIVE_MIN_FUNC_SZ
  let back := s.functions.getLastD 0
  let s1 := { s with labels := umap_touch s.labels (back + 1) none }
  let prev_func_start := labelOffsetFromBase s1.code (umap_get s.labels (back + 1) none)
  let diff := (((a_offset s1 : Int) - (prev_func_start : Int)) % 2 ^ 64).toNat
  if diff < minimum_size then embed_zeros s1 (minimum_size - diff) else s1

/-- `ArgVal` of `beam_asm.hpp`: an operand, with its tag and value. -/
structure ArgVal where
  tag : Nat
  value : Nat
deriving DecidableEq, Repr

/-- `getOffset()` of `beam_asm.hpp`: `a.offset()`. -/
def getOffset (s : BeamModuleAssembler) : Nat := a_offset s

/-- `BeamModuleAssembler::emit(specific_op, args)`.  The `switch` over the
generated `beamasm_emit.h` is the parameter `table`: `table op` is the emitter
the case of `op` calls, and `none` when the switch has no case for `op`, where
`ERTS_ASSERT(0 && "Invalid instruction")` ends the run (`none`).  After the
opcode's own code a no-op is emitted when the offset is `last_error_offset`. -/
def emit (table : Nat → Option (List ArgVal → BeamModuleAssembler → BeamModuleAssembler))
    (s : BeamModuleAssembler) (specific_op : Nat) (args : List ArgVal) :
    Option (BeamModuleAssembler × Bool) :=
  match table specific_op with
  | none => none
  | some emitter =>
    let s1 := emitter args s
    let s2 := if getOffset s1 = s1.last_error_offset then a_nop s1 else s1
    some (s2, true)

/-- The loop of `patchStrings` over the string patch records: the location is
`pp + 2` for every record, `patch.ptr_offs` is not read;
`ASSERT(LLONG_MAX == (Eterm)*where)` is checked by debug builds only and ends
the run with `none` when it fails; then `*where = strtab + patch.val_offs`. -/
def patch_strings (DEBUG : Bool) (s : BeamModuleAssembler) (strtab : Nat) :
    List patch → Mem → Option Mem
  | [], mem => some mem
  | p :: rest, mem =>
    let pp := getCodeLabel s p.where_
    let where_ := pp + 2
    if DEBUG = true ∧ LLONG_MAX ≠ read64 mem where_ then none
    else patch_strings DEBUG s strtab rest
      (write64 mem where_ (((strtab : Int) + p.val_offs) % 2 ^ 64).toNat)

/-- `BeamModuleAssembler::patchStrings(strtab)`. -/
def patchStrings (DEBUG : Bool) (s : BeamModuleAssembler) (mem : Mem) (strtab : Nat) :
    Option Mem :=
  patch_strings DEBUG s strtab s.strings mem

end BeamAsm

/-! # Properties of the registry -/

namespace ErlFun

/-! ## Pointers and slots -/

theorem deref_eq_some_iff {t : Hash} {fe : Nat} {obj : ErlFunEntry} :
    deref t fe = some obj ↔ t[fe]? = some (some obj) := by
  unfold deref
  constructor
  · intro h
    split at h
    · next o ho => cases h; exact ho
    · cases h
  · intro h
    rw [h]

theorem deref_lt {t : Hash} {fe : Nat} {obj : ErlFunEntry} (h : deref t fe = some obj) :
    fe < t.length := by
  rw [deref_eq_some_iff] at h
  by_contra hlt
  rw [List.getElem?_eq_none (by omega)] at h
  cases h

theorem deref_set_self {t : Hash} {fe : Nat} (x : Option ErlFunEntry) (h : fe < t.length) :
    deref (t.set fe x) fe = x := by
  unfold deref
  rw [List.getElem?_set, if_pos rfl, if_pos h]
  cases x <;> rfl

theorem deref_set_ne {t : Hash} {fe p : Nat} (x : Option ErlFunEntry) (h : fe ≠ p) :
    deref (t.set fe x) p = deref t p := by
  unfold deref
  rw [List.getElem?_set_ne h]

theorem deref_append_left {t : Hash} {p : Nat} (s : Hash) (h : p < t.length) :
    deref (t ++ s) p = deref t p := by
  unfold deref
  rw [List.getElem?_append_left h]

theorem deref_cons_succ (x : Option ErlFunEntry) (t : Hash) (p : Nat) :
    deref (x :: t) (p + 1) = deref t p := by
  unfold deref
  simp

theorem deref_cons_zero (x : Option ErlFunEntry) (t : Hash) :
    deref (x :: t) 0 = x := by
  unfold deref
  cases x <;> simp

theorem fun_cmp_eq_zero_iff (a b : ErlFunEntry) :
    fun_cmp a b = 0 ↔ (a.module = b.module ∧ a.old_uniq = b.old_uniq ∧ a.index = b.index) := by
  unfold fun_cmp
  split
  · next h => simp [h]
  · next h => simp [h]

/-! ## Lookup -/

theorem hash_find_eq_none {tmpl : ErlFunEntry} {t : Hash} (p : Nat)
    (h : ∀ i obj, deref t i = some obj → fun_cmp tmpl obj ≠ 0) :
    hash_find tmpl p t = none := by
  induction t generalizing p with
  | nil => rfl
  | cons x rest ih =>
    have hrest : ∀ i obj, deref rest i = some obj → fun_cmp tmpl obj ≠ 0 := by
      intro i obj hi
      exact h (i + 1) obj (by rw [deref_cons_succ]; exact hi)
    cases x with
    | none => exact ih (p + 1) hrest
    | some b =>
      have hb : fun_cmp tmpl b ≠ 0 := h 0 b (deref_cons_zero _ _)
      simp only [hash_find, if_neg hb]
      exact ih (p + 1) hrest

theorem hash_find_some {tmpl : ErlFunEntry} {t : Hash} {p q : Nat}
    (h : hash_find tmpl p t = some q) :
    p ≤ q ∧ ∃ obj, deref t (q - p) = some obj ∧ fun_cmp tmpl obj = 0 ∧
      ∀ i b, i < q - p → deref t i = some b → fun_cmp tmpl b ≠ 0 := by
  induction t generalizing p with
  | nil => cases h
  | cons x rest ih =>
    cases x with
    | none =>
      simp only [hash_find] at h
      obtain ⟨hle, obj, hd, hc, hfirst⟩ := ih h
      refine ⟨by omega, obj, ?_, hc, ?_⟩
      · have : q - p = (q - (p + 1)) + 1 := by omega
        rw [this, deref_cons_succ]; exact hd
      · intro i b hi hib
        cases i with
        | zero => rw [deref_cons_zero] at hib; cases hib
        | succ j =>
          rw [deref_cons_succ] at hib
          exact hfirst j b (by omega) hib
    | some b =>
      simp only [hash_find] at h
      split at h
      · next hc =>
        cases h
        refine ⟨le_refl _, b, ?_, hc, ?_⟩
        · simp [deref_cons_zero]
        · intro i b' hi; omega
      · next hc =>
        obtain ⟨hle, obj, hd, hc', hfirst⟩ := ih h
        refine ⟨by omega, obj, ?_, hc', ?_⟩
        · have : q - p = (q - (p + 1)) + 1 := by omega
          rw [this, deref_cons_succ]; exact hd
        · intro i b' hi hib
          cases i with
          | zero =>
            have : b' = b := by
              rw [deref_cons_zero] at hib; cases hib; rfl
            rw [this]; exact hc
          | succ j =>
            rw [deref_cons_succ] at hib
            exact hfirst j b' (by omega) hib

theorem hash_get_eq_none {tmpl : ErlFunEntry} {t : Hash}
    (h : ∀ i obj, deref t i = some obj → fun_cmp tmpl obj ≠ 0) :
    hash_get t tmpl = none :=
  hash_find_eq_none 0 h

theorem hash_get_some {tmpl : ErlFunEntry} {t : Hash} {q : Nat}
    (h : hash_get t tmpl = some q) :
    ∃ obj, deref t q = some obj ∧ fun_cmp tmpl obj = 0 ∧
      ∀ i b, i < q → deref t i = some b → fun_cmp tmpl b ≠ 0 := by
  obtain ⟨_, obj, hd, hc, hfirst⟩ := hash_find_some h
  exact ⟨obj, by simpa using hd, hc, by simpa using hfirst⟩

theorem modify_of_deref {t : Hash} {fe : Nat} {obj : ErlFunEntry}
    (f : ErlFunEntry → ErlFunEntry) (h : deref t fe = some obj) :
    modify t fe f = t.set fe (some (f obj)) := by
  unfold modify
  rw [h]

theorem modify_of_deref_none {t : Hash} {fe : Nat}
    (f : ErlFunEntry → ErlFunEntry) (h : deref t fe = none) :
    modify t fe f = t := by
  unfold modify
  rw [h]

theorem deref_append_length (t : Hash) (obj : ErlFunEntry) :
    deref (t ++ [some obj]) t.length = some obj := by
  unfold deref
  simp

theorem set_append_length (t : Hash) (x y : Option ErlFunEntry) :
    (t ++ [x]).set t.length y = t ++ [y] := by
  induction t with
  | nil => rfl
  | cons a rest ih => simp [List.set, ih]


/-! ## Creating an entry -/

/-- On an absent identity `erts_put_fun_entry2` appends the object `fun_alloc`
makes, updated by the stores and the count raises of the call. -/
theorem erts_put_fun_entry2_of_absent (unloaded_fun : Nat) (t : Hash) (mod : Nat)
    (old_uniq old_index : Int) (uniq : List Nat) (index arity : Int)
    (habsent : ∀ p obj, deref t p = some obj →
      ¬ (obj.module = mod ∧ obj.old_uniq = old_uniq ∧ obj.index = index)) :
    erts_put_fun_entry2 unloaded_fun t mod old_uniq old_index uniq index arity =
      (t ++ [some ((fun obj : ErlFunEntry =>
          if erts_refc_inctest obj.refc 0 < 2 then
            { obj with uniq := uniq, old_index := old_index, arity := (arity % 2 ^ 64).toNat,
                       refc := erts_refc_inc (erts_refc_inctest obj.refc 0) 1 }
          else
            { obj with uniq := uniq, old_index := old_index, arity := (arity % 2 ^ 64).toNat,
                       refc := erts_refc_inctest obj.refc 0 })
        (fun_alloc unloaded_fun (fun_template mod old_uniq index)))], t.length) := by
  have hget : hash_get t (fun_template mod old_uniq index) = none := by
    apply hash_get_eq_none
    intro i obj hi hc
    rw [fun_cmp_eq_zero_iff] at hc
    exact habsent i obj hi ⟨hc.1.symm, hc.2.1.symm, hc.2.2.symm⟩
  unfold erts_put_fun_entry2 hash_put
  simp only [hget]
  rw [modify_of_deref _ (deref_append_length _ _), set_append_length]

/-- C1: when no live entry has the identity `(mod, old_uniq, index)`,
`erts_put_fun_entry2` leaves every existing slot as it was and adds exactly one
entry, at a fresh pointer, with that identity, with `unloaded_fun` as its code
address, `NULL` as its pending-purge address and a reference count of `1`
(initialised at `-1`, then raised twice). -/
theorem erts_put_fun_entry2_absent (unloaded_fun : Nat) (t : Hash) (mod : Nat)
    (old_uniq old_index : Int) (uniq : List Nat) (index arity : Int)
    (habsent : ∀ p obj, deref t p = some obj →
      ¬ (obj.module = mod ∧ obj.old_uniq = old_uniq ∧ obj.index = index)) :
    erts_put_fun_entry2 unloaded_fun t mod old_uniq old_index uniq index arity =
      (t ++ [some { uniq := uniq, index := index, old_uniq := old_uniq, old_index := old_index,
                    address := unloaded_fun, arity := (arity % 2 ^ 64).toNat, module := mod,
                    refc := 1, pend_purge_address := NULL }], t.length) := by
  rw [erts_put_fun_entry2_of_absent unloaded_fun t mod old_uniq old_index uniq index arity
    habsent]
  have hinit : (fun_alloc unloaded_fun (fun_template mod old_uniq index)).refc = -1 := rfl
  have hfirst : erts_refc_inctest (-1) 0 = 0 := rfl
  have hsecond : erts_refc_inc 0 1 = 1 := rfl
  simp only [hinit, hfirst, hsecond]
  rfl

/-- Witness for C1: a table with one entry `(1, 7, 0)` receives `(1, 7, 1)`. -/
theorem erts_put_fun_entry2_absent_witness :
    erts_put_fun_entry2 1000
        [some { uniq := [], index := 0, old_uniq := 7, old_index := 0, address := 1000,
                arity := 0, module := 1, refc := 1, pend_purge_address := 0 }]
        1 7 1 [] 1 2 =
      ([some { uniq := [], index := 0, old_uniq := 7, old_index := 0, address := 1000,
               arity := 0, module := 1, refc := 1, pend_purge_address := 0 }] ++
        [some { uniq := [], index := 1, old_uniq := 7, old_index := 1, address := 1000,
                arity := ((2 : Int) % 2 ^ 64).toNat, module := 1, refc := 1,
                pend_purge_address := NULL }], 1) :=
  erts_put_fun_entry2_absent 1000 _ 1 7 1 [] 1 2 (by
    intro p obj h
    match p with
    | 0 => rw [deref_cons_zero] at h; cases h; decide
    | p + 1 => rw [deref_cons_succ] at h; simp [deref] at h)

/-! ## The registry invariant -/

theorem fun_cmp_eq_zero_iff_same (a b : ErlFunEntry) : fun_cmp a b = 0 ↔ same_identity a b :=
  fun_cmp_eq_zero_iff a b

theorem same_identity_refl (a : ErlFunEntry) : same_identity a a :=
  ⟨rfl, rfl, rfl⟩

theorem same_identity_symm {a b : ErlFunEntry} (h : same_identity a b) : same_identity b a :=
  ⟨h.1.symm, h.2.1.symm, h.2.2.symm⟩

theorem same_identity_trans {a b c : ErlFunEntry} (h1 : same_identity a b)
    (h2 : same_identity b c) : same_identity a c :=
  ⟨h1.1.trans h2.1, h1.2.1.trans h2.2.1, h1.2.2.trans h2.2.2⟩

theorem deref_eq_getElem {t : Hash} {p : Nat} (hp : p < t.length) : deref t p = t[p] := by
  unfold deref
  rw [List.getElem?_eq_getElem hp]
  cases t[p] <;> rfl

/-- The invariant read through pointers: two live pointers whose entries compare
equal are the same pointer. -/
theorem fun_table_inv_iff (t : Hash) :
    fun_table_inv t ↔ ∀ p q a b, deref t p = some a → deref t q = some b →
      same_identity a b → p = q := by
  unfold fun_table_inv
  rw [List.pairwise_iff_getElem]
  constructor
  · intro h p q a b hp hq hab
    have hpl := deref_lt hp
    have hql := deref_lt hq
    rw [deref_eq_getElem hpl] at hp
    rw [deref_eq_getElem hql] at hq
    rcases Nat.lt_trichotomy p q with hlt | heq | hgt
    · have := h p q hpl hql hlt
      rw [hp, hq] at this
      exact absurd ((fun_cmp_eq_zero_iff_same a b).2 hab) this
    · exact heq
    · have := h q p hql hpl hgt
      rw [hp, hq] at this
      exact absurd ((fun_cmp_eq_zero_iff_same b a).2 (same_identity_symm hab)) this
  · intro h i j hi hj hij
    have hdi := deref_eq_getElem hi
    have hdj := deref_eq_getElem hj
    cases hti : t[i] with
    | none => trivial
    | some a =>
      cases htj : t[j] with
      | none => trivial
      | some b =>
        show fun_cmp a b ≠ 0
        intro hc
        rw [hti] at hdi
        rw [htj] at hdj
        have := h i j a b hdi hdj ((fun_cmp_eq_zero_iff_same a b).1 hc)
        omega

theorem keeps_identity_refl (t : Hash) : keeps_identity t t :=
  fun _ obj' h => ⟨obj', h, same_identity_refl obj'⟩

theorem keeps_identity_trans {t1 t2 t3 : Hash} (h12 : keeps_identity t1 t2)
    (h23 : keeps_identity t2 t3) : keeps_identity t1 t3 := by
  intro p obj3 h3
  obtain ⟨obj2, h2, s23⟩ := h23 p obj3 h3
  obtain ⟨obj1, h1, s12⟩ := h12 p obj2 h2
  exact ⟨obj1, h1, same_identity_trans s12 s23⟩

theorem fun_table_inv_of_keeps_identity {t t' : Hash} (hinv : fun_table_inv t)
    (hk : keeps_identity t t') : fun_table_inv t' := by
  rw [fun_table_inv_iff] at hinv ⊢
  intro p q a' b' hp hq hab
  obtain ⟨a, ha, sa⟩ := hk p a' hp
  obtain ⟨b, hb, sb⟩ := hk q b' hq
  exact hinv p q a b ha hb
    (same_identity_trans sa (same_identity_trans hab (same_identity_symm sb)))

theorem keeps_identity_set_some {t : Hash} {fe : Nat} {obj obj' : ErlFunEntry}
    (hd : deref t fe = some obj) (hs : same_identity obj obj') :
    keeps_identity t (t.set fe (some obj')) := by
  intro p o hp
  by_cases hpe : fe = p
  · subst hpe
    rw [deref_set_self _ (deref_lt hd)] at hp
    cases hp
    exact ⟨obj, hd, hs⟩
  · rw [deref_set_ne _ hpe] at hp
    exact ⟨o, hp, same_identity_refl o⟩

theorem keeps_identity_set_none (t : Hash) (fe : Nat) :
    keeps_identity t (t.set fe none) := by
  intro p o hp
  by_cases hpe : fe = p
  · subst hpe
    by_cases hl : fe < t.length
    · rw [deref_set_self _ hl] at hp
      cases hp
    · rw [List.set_eq_of_length_le (by omega)] at hp
      exact ⟨o, hp, same_identity_refl o⟩
  · rw [deref_set_ne _ hpe] at hp
    exact ⟨o, hp, same_identity_refl o⟩

theorem keeps_identity_modify (t : Hash) (fe : Nat) (f : ErlFunEntry → ErlFunEntry)
    (hf : ∀ obj, same_identity obj (f obj)) : keeps_identity t (modify t fe f) := by
  cases hd : deref t fe with
  | none => rw [modify_of_deref_none f hd]; exact keeps_identity_refl t
  | some obj => rw [modify_of_deref f hd]; exact keeps_identity_set_some hd (hf obj)

theorem keeps_identity_foldl_modify (f : ErlFunEntry → ErlFunEntry)
    (hf : ∀ obj, same_identity obj (f obj)) (funs : List Nat) (t : Hash) :
    keeps_identity t (funs.foldl (fun t fe => modify t fe f) t) := by
  induction funs generalizing t with
  | nil => exact keeps_identity_refl t
  | cons fe rest ih =>
    exact keeps_identity_trans (keeps_identity_modify t fe f hf) (ih (modify t fe f))

theorem keeps_identity_hash_erase (t : Hash) (tmpl : ErlFunEntry) :
    keeps_identity t (hash_erase t tmpl) := by
  unfold hash_erase
  cases hash_get t tmpl with
  | none => exact keeps_identity_refl t
  | some p => exact keeps_identity_set_none t p

theorem erts_erase_fun_entry_of_deref (unloaded_fun : Nat) {t : Hash} {fe : Nat}
    {obj : ErlFunEntry} (hd : deref t fe = some obj) :
    erts_erase_fun_entry unloaded_fun t fe =
      if obj.refc - 1 ≤ 0 then
        if obj.address ≠ unloaded_fun then
          .erts_exit (t.set fe (some { obj with refc := obj.refc - 1 }))
        else
          .returned (hash_erase (t.set fe (some { obj with refc := obj.refc - 1 }))
            { obj with refc := obj.refc - 1 })
      else .returned (t.set fe (some { obj with refc := obj.refc - 1 })) := by
  unfold erts_erase_fun_entry
  rw [hd]
  rfl

theorem erts_erase_fun_entry_of_deref_none (unloaded_fun : Nat) {t : Hash} {fe : Nat}
    (hd : deref t fe = none) :
    erts_erase_fun_entry unloaded_fun t fe = .returned t := by
  unfold erts_erase_fun_entry
  rw [hd]

theorem erts_fun_purge_complete_cons (unloaded_fun : Nat) {t : Hash} {fe : Nat}
    {obj : ErlFunEntry} (funs : List Nat) (hd : deref t fe = some obj) :
    erts_fun_purge_complete unloaded_fun t (fe :: funs) =
      if obj.refc - 1 = 0 then
        match erts_erase_fun_entry unloaded_fun
            (t.set fe (some { obj with pend_purge_address := NULL, refc := obj.refc - 1 })) fe with
        | .returned t2 => erts_fun_purge_complete unloaded_fun t2 funs
        | .erts_exit t2 => .erts_exit t2
      else
        erts_fun_purge_complete unloaded_fun
          (t.set fe (some { obj with pend_purge_address := NULL, refc := obj.refc - 1 })) funs := by
  rw [erts_fun_purge_complete]
  rw [hd]
  rfl

theorem erts_fun_purge_complete_cons_none (unloaded_fun : Nat) {t : Hash} {fe : Nat}
    (funs : List Nat) (hd : deref t fe = none) :
    erts_fun_purge_complete unloaded_fun t (fe :: funs) =
      erts_fun_purge_complete unloaded_fun t funs := by
  rw [erts_fun_purge_complete]
  rw [hd]

theorem keeps_identity_erase (unloaded_fun : Nat) (t : Hash) (fe : Nat) :
    keeps_identity t (erts_erase_fun_entry unloaded_fun t fe).table := by
  cases hd : deref t fe with
  | none =>
    rw [erts_erase_fun_entry_of_deref_none _ hd]
    exact keeps_identity_refl t
  | some obj =>
    rw [erts_erase_fun_entry_of_deref _ hd]
    have hset : keeps_identity t (t.set fe (some { obj with refc := obj.refc - 1 })) :=
      keeps_identity_set_some hd ⟨rfl, rfl, rfl⟩
    split
    · split
      · exact hset
      · exact keeps_identity_trans hset (keeps_identity_hash_erase _ _)
    · exact hset

theorem keeps_identity_purge_complete (unloaded_fun : Nat) (funs : List Nat) (t : Hash) :
    keeps_identity t (erts_fun_purge_complete unloaded_fun t funs).table := by
  induction funs generalizing t with
  | nil => exact keeps_identity_refl t
  | cons fe rest ih =>
    cases hd : deref t fe with
    | none =>
      rw [erts_fun_purge_complete_cons_none _ _ hd]
      exact ih t
    | some obj =>
      rw [erts_fun_purge_complete_cons _ _ hd]
      have hset : keeps_identity t
          (t.set fe (some { obj with pend_purge_address := NULL, refc := obj.refc - 1 })) :=
        keeps_identity_set_some hd ⟨rfl, rfl, rfl⟩
      split
      · have he := keeps_identity_erase unloaded_fun
          (t.set fe (some { obj with pend_purge_address := NULL, refc := obj.refc - 1 })) fe
        split
        · next t2 h2 =>
          rw [h2] at he
          exact keeps_identity_trans hset (keeps_identity_trans he (ih t2))
        · next t2 h2 =>
          rw [h2] at he
          exact keeps_identity_trans hset he
      · exact keeps_identity_trans hset (ih _)

theorem hash_find_none_imp {tmpl : ErlFunEntry} {t : Hash} {p : Nat}
    (h : hash_find tmpl p t = none) :
    ∀ i obj, deref t i = some obj → fun_cmp tmpl obj ≠ 0 := by
  induction t generalizing p with
  | nil => intro i obj hi; simp [deref] at hi
  | cons x rest ih =>
    intro i obj hi
    cases x with
    | none =>
      simp only [hash_find] at h
      cases i with
      | zero => rw [deref_cons_zero] at hi; cases hi
      | succ j => rw [deref_cons_succ] at hi; exact ih h j obj hi
    | some b =>
      simp only [hash_find] at h
      split at h
      · cases h
      · next hc =>
        cases i with
        | zero => rw [deref_cons_zero] at hi; cases hi; exact hc
        | succ j => rw [deref_cons_succ] at hi; exact ih h j obj hi

theorem hash_get_none_imp {tmpl : ErlFunEntry} {t : Hash} (h : hash_get t tmpl = none) :
    ∀ i obj, deref t i = some obj → fun_cmp tmpl obj ≠ 0 :=
  hash_find_none_imp h

theorem deref_append_singleton {t : Hash} {x : Option ErlFunEntry} {p : Nat}
    {obj : ErlFunEntry} (h : deref (t ++ [x]) p = some obj) :
    deref t p = some obj ∨ (p = t.length ∧ x = some obj) := by
  by_cases hp : p < t.length
  · rw [deref_append_left _ hp] at h
    exact Or.inl h
  · right
    rw [deref_eq_some_iff] at h
    rw [List.getElem?_append_right (by omega)] at h
    have hlt : p - t.length < 1 := by
      by_contra hge
      rw [List.getElem?_eq_none (by simp; omega)] at h
      cases h
    have h0 : p - t.length = 0 := by omega
    rw [h0] at h
    simp at h
    exact ⟨by omega, h⟩

theorem fun_table_inv_append {t : Hash} {x : ErlFunEntry} (hinv : fun_table_inv t)
    (hx : ∀ i obj, deref t i = some obj → fun_cmp x obj ≠ 0) :
    fun_table_inv (t ++ [some x]) := by
  rw [fun_table_inv_iff] at hinv ⊢
  intro p q a b hp hq hab
  rcases deref_append_singleton hp with hp1 | ⟨hp1, hp2⟩
  · rcases deref_append_singleton hq with hq1 | ⟨hq1, hq2⟩
    · exact hinv p q a b hp1 hq1 hab
    · rw [← Option.some.inj hq2] at hab
      exact absurd ((fun_cmp_eq_zero_iff_same x a).2 (same_identity_symm hab)) (hx p a hp1)
  · rw [← Option.some.inj hp2] at hab
    rcases deref_append_singleton hq with hq1 | ⟨hq1, hq2⟩
    · exact absurd ((fun_cmp_eq_zero_iff_same x b).2 hab) (hx q b hq1)
    · omega

theorem erts_put_fun_entry2_eq (unloaded_fun : Nat) (t : Hash) (mod : Nat)
    (old_uniq old_index : Int) (uniq : List Nat) (index arity : Int) :
    erts_put_fun_entry2 unloaded_fun t mod old_uniq old_index uniq index arity =
      (modify (hash_put unloaded_fun t (fun_template mod old_uniq index)).1
        (hash_put unloaded_fun t (fun_template mod old_uniq index)).2
        (put_update uniq old_index arity),
       (hash_put unloaded_fun t (fun_template mod old_uniq index)).2) := by
  unfold erts_put_fun_entry2
  simp only []
  congr 2
  funext obj
  simp only [put_update, erts_refc_inctest, erts_refc_inc]
  split <;> rfl

theorem erts_get_fun_entry_eq (t : Hash) (mod : Nat) (uniq index : Int) :
    erts_get_fun_entry t mod uniq index =
      match hash_get t (fun_template mod uniq index) with
      | some ret => (modify t ret get_update, some ret)
      | none => (t, none) := by
  unfold erts_get_fun_entry
  simp only []
  split
  · congr 2
    funext obj
    simp only [get_update, erts_refc_inctest, erts_refc_inc]
    split <;> rfl
  · rfl

theorem same_identity_put_update (uniq : List Nat) (old_index arity : Int) (obj : ErlFunEntry) :
    same_identity obj (put_update uniq old_index arity obj) :=
  ⟨rfl, rfl, rfl⟩

theorem same_identity_get_update (obj : ErlFunEntry) : same_identity obj (get_update obj) :=
  ⟨rfl, rfl, rfl⟩

/-- The two ways `erts_put_fun_entry2` can go: the identity is present at `p` and
the entry there is updated in place, or it is absent and one entry is appended. -/
theorem erts_put_fun_entry2_cases (unloaded_fun : Nat) (t : Hash) (mod : Nat)
    (old_uniq old_index : Int) (uniq : List Nat) (index arity : Int) :
    (∃ p obj, deref t p = some obj ∧
        obj.module = mod ∧ obj.old_uniq = old_uniq ∧ obj.index = index ∧
        (∀ i b, i < p → deref t i = some b →
          ¬ (b.module = mod ∧ b.old_uniq = old_uniq ∧ b.index = index)) ∧
        erts_put_fun_entry2 unloaded_fun t mod old_uniq old_index uniq index arity =
          (t.set p (some (put_update uniq old_index arity obj)), p)) ∨
    (∃ x : ErlFunEntry, (∀ i obj, deref t i = some obj → fun_cmp x obj ≠ 0) ∧
        erts_put_fun_entry2 unloaded_fun t mod old_uniq old_index uniq index arity =
          (t ++ [some x], t.length)) := by
  rw [erts_put_fun_entry2_eq]
  unfold hash_put
  cases hg : hash_get t (fun_template mod old_uniq index) with
  | some p =>
    left
    obtain ⟨obj, hd, hc, hfirst⟩ := hash_get_some hg
    rw [fun_cmp_eq_zero_iff] at hc
    refine ⟨p, obj, hd, hc.1.symm, hc.2.1.symm, hc.2.2.symm, ?_, ?_⟩
    · intro i b hi hb hid
      apply hfirst i b hi hb
      rw [fun_cmp_eq_zero_iff]
      exact ⟨hid.1.symm, hid.2.1.symm, hid.2.2.symm⟩
    · simp only []
      rw [modify_of_deref _ hd]
  | none =>
    right
    have hall := hash_get_none_imp hg
    refine ⟨put_update uniq old_index arity
      (fun_alloc unloaded_fun (fun_template mod old_uniq index)), ?_, ?_⟩
    rotate_left
    · simp only []
      rw [modify_of_deref _ (deref_append_length _ _), set_append_length]
    · intro i obj hi hc
      apply hall i obj hi
      rw [fun_cmp_eq_zero_iff] at hc ⊢
      exact hc

theorem keeps_identity_get (t : Hash) (mod : Nat) (uniq index : Int) :
    keeps_identity t (erts_get_fun_entry t mod uniq index).1 := by
  rw [erts_get_fun_entry_eq]
  split
  · exact keeps_identity_modify _ _ _ same_identity_get_update
  · exact keeps_identity_refl t

/-! ## Scanning the table -/

theorem hash_foreach_purge_fst (unloaded_fun : Nat) (arg : fun_purge_foreach_args)
    (t : Hash) (p : Nat) (funs : List Nat) :
    (hash_foreach (fun_purge_foreach unloaded_fun arg) p t funs).1 =
      t.map (Option.map (purge_update unloaded_fun arg.start arg.end_)) := by
  induction t generalizing p funs with
  | nil => rfl
  | cons x rest ih =>
    cases x with
    | none => simp only [hash_foreach, List.map_cons, Option.map_none', ih]
    | some obj =>
      simp only [hash_foreach, List.map_cons, Option.map_some', ih]
      congr 2
      unfold fun_purge_foreach purge_update
      simp only []
      split <;> rfl

theorem hash_foreach_purge_snd (unloaded_fun : Nat) (arg : fun_purge_foreach_args)
    (t : Hash) (p : Nat) (funs : List Nat) (fe : Nat) :
    fe ∈ (hash_foreach (fun_purge_foreach unloaded_fun arg) p t funs).2 ↔
      fe ∈ funs ∨ (p ≤ fe ∧ ∃ obj, deref t (fe - p) = some obj ∧
        arg.start ≤ obj.address ∧ obj.address < arg.end_) := by
  induction t generalizing p funs with
  | nil =>
    simp only [hash_foreach]
    constructor
    · intro h; exact Or.inl h
    · rintro (h | ⟨_, obj, hd, _⟩)
      · exact h
      · simp [deref] at hd
  | cons x rest ih =>
    have shift : ∀ obj : ErlFunEntry, p + 1 ≤ fe →
        (deref rest (fe - (p + 1)) = some obj ↔ deref (x :: rest) (fe - p) = some obj) := by
      intro obj hle
      have : fe - p = (fe - (p + 1)) + 1 := by omega
      rw [this, deref_cons_succ]
    cases x with
    | none =>
      simp only [hash_foreach]
      rw [ih]
      constructor
      · rintro (h | ⟨hle, obj, hd, hr⟩)
        · exact Or.inl h
        · exact Or.inr ⟨by omega, obj, (shift obj hle).1 hd, hr⟩
      · rintro (h | ⟨hle, obj, hd, hr⟩)
        · exact Or.inl h
        · by_cases hpe : fe = p
          · subst hpe
            rw [Nat.sub_self, deref_cons_zero] at hd
            cases hd
          · exact Or.inr ⟨by omega, obj, (shift obj (by omega)).2 hd, hr⟩
    | some b =>
      simp only [hash_foreach]
      rw [ih]
      have hsnd : (fun_purge_foreach unloaded_fun arg p b funs).2 =
          if arg.start ≤ b.address ∧ b.address < arg.end_ then funs ++ [p] else funs := by
        unfold fun_purge_foreach erts_purge_state_add_fun
        simp only []
        split <;> rfl
      rw [hsnd]
      constructor
      · rintro (h | ⟨hle, obj, hd, hr⟩)
        · split at h
          · next hin =>
            rcases List.mem_append.1 h with h1 | h1
            · exact Or.inl h1
            · have : fe = p := by simpa using h1
              subst this
              exact Or.inr ⟨le_refl _, b, by rw [Nat.sub_self, deref_cons_zero], hin⟩
          · exact Or.inl h
        · exact Or.inr ⟨by omega, obj, (shift obj hle).1 hd, hr⟩
      · rintro (h | ⟨hle, obj, hd, hr⟩)
        · left
          split
          · exact List.mem_append.2 (Or.inl h)
          · exact h
        · by_cases hpe : fe = p
          · subst hpe
            rw [Nat.sub_self, deref_cons_zero] at hd
            cases hd
            left
            rw [if_pos hr]
            exact List.mem_append.2 (Or.inr (by simp))
          · exact Or.inr ⟨by omega, obj, (shift obj (by omega)).2 hd, hr⟩

theorem erts_fun_purge_prepare_fst (unloaded_fun : Nat) (t : Hash) (start end_ : Nat) :
    (erts_fun_purge_prepare unloaded_fun t start end_).1 =
      t.map (Option.map (purge_update unloaded_fun start end_)) := by
  unfold erts_fun_purge_prepare
  exact hash_foreach_purge_fst unloaded_fun _ t 0 []

theorem mem_erts_fun_purge_prepare_snd (unloaded_fun : Nat) (t : Hash) (start end_ : Nat)
    (fe : Nat) :
    fe ∈ (erts_fun_purge_prepare unloaded_fun t start end_).2 ↔
      ∃ obj, deref t fe = some obj ∧ start ≤ obj.address ∧ obj.address < end_ := by
  unfold erts_fun_purge_prepare
  rw [hash_foreach_purge_snd]
  simp

theorem deref_map (f : ErlFunEntry → ErlFunEntry) (t : Hash) (p : Nat) :
    deref (t.map (Option.map f)) p = (deref t p).map f := by
  unfold deref
  rw [List.getElem?_map]
  cases h : t[p]? with
  | none => rfl
  | some x => cases x <;> rfl

theorem same_identity_purge_update (unloaded_fun start end_ : Nat) (obj : ErlFunEntry) :
    same_identity obj (purge_update unloaded_fun start end_ obj) := by
  unfold purge_update
  split <;> exact ⟨rfl, rfl, rfl⟩

theorem same_identity_abort_update (unloaded_fun : Nat) (obj : ErlFunEntry) :
    same_identity obj (abort_update unloaded_fun obj) := by
  unfold abort_update
  split <;> exact ⟨rfl, rfl, rfl⟩

theorem same_identity_finalize_update (obj : ErlFunEntry) :
    same_identity obj (finalize_update obj) :=
  ⟨rfl, rfl, rfl⟩

theorem keeps_identity_purge_prepare (unloaded_fun : Nat) (t : Hash) (start end_ : Nat) :
    keeps_identity t (erts_fun_purge_prepare unloaded_fun t start end_).1 := by
  rw [erts_fun_purge_prepare_fst]
  intro p obj' hp
  rw [deref_map] at hp
  cases hd : deref t p with
  | none => rw [hd] at hp; cases hp
  | some obj =>
    rw [hd] at hp
    cases hp
    exact ⟨obj, rfl, same_identity_purge_update _ _ _ obj⟩

theorem erts_fun_purge_abort_prepare_eq (unloaded_fun : Nat) (t : Hash) (funs : List Nat) :
    erts_fun_purge_abort_prepare unloaded_fun t funs =
      funs.foldl (fun t fe => modify t fe (abort_update unloaded_fun)) t := rfl

theorem erts_fun_purge_abort_finalize_eq (t : Hash) (funs : List Nat) :
    erts_fun_purge_abort_finalize t funs =
      funs.foldl (fun t fe => modify t fe finalize_update) t := rfl

theorem keeps_identity_purge_abort_prepare (unloaded_fun : Nat) (t : Hash) (funs : List Nat) :
    keeps_identity t (erts_fun_purge_abort_prepare unloaded_fun t funs) := by
  rw [erts_fun_purge_abort_prepare_eq]
  exact keeps_identity_foldl_modify _ (same_identity_abort_update unloaded_fun) funs t

theorem keeps_identity_purge_abort_finalize (t : Hash) (funs : List Nat) :
    keeps_identity t (erts_fun_purge_abort_finalize t funs) := by
  rw [erts_fun_purge_abort_finalize_eq]
  exact keeps_identity_foldl_modify _ same_identity_finalize_update funs t

/-- A step either keeps every identity in place, or appends one entry whose
identity no live entry has. -/
theorem step_cases {unloaded_fun : Nat} {t t' : Hash} (h : Step unloaded_fun t t') :
    keeps_identity t t' ∨
      ∃ x : ErlFunEntry, (∀ i obj, deref t i = some obj → fun_cmp x obj ≠ 0) ∧
        t' = t ++ [some x] := by
  cases h with
  | put mod old_uniq old_index uniq index arity =>
    rcases erts_put_fun_entry2_cases unloaded_fun t mod old_uniq old_index uniq index arity with
      ⟨p, obj, hd, _, _, _, _, he⟩ | ⟨x, hx, he⟩
    · left
      rw [he]
      exact keeps_identity_set_some hd (same_identity_put_update _ _ _ obj)
    · right
      exact ⟨x, hx, by rw [he]⟩
  | get mod uniq index => exact Or.inl (keeps_identity_get t mod uniq index)
  | erase fe => exact Or.inl (keeps_identity_erase unloaded_fun t fe)
  | purge_prepare start end_ =>
    exact Or.inl (keeps_identity_purge_prepare unloaded_fun t start end_)
  | purge_abort_prepare funs =>
    exact Or.inl (keeps_identity_purge_abort_prepare unloaded_fun t funs)
  | purge_abort_finalize funs => exact Or.inl (keeps_identity_purge_abort_finalize t funs)
  | purge_complete funs => exact Or.inl (keeps_identity_purge_complete unloaded_fun funs t)

theorem fun_table_inv_step {unloaded_fun : Nat} {t t' : Hash} (h : Step unloaded_fun t t')
    (hinv : fun_table_inv t) : fun_table_inv t' := by
  rcases step_cases h with hk | ⟨x, hx, rfl⟩
  · exact fun_table_inv_of_keeps_identity hinv hk
  · exact fun_table_inv_append hinv hx

theorem step_identity {unloaded_fun : Nat} {t t' : Hash} (h : Step unloaded_fun t t')
    {p : Nat} {obj obj' : ErlFunEntry} (hp : deref t p = some obj)
    (hp' : deref t' p = some obj') : same_identity obj obj' := by
  rcases step_cases h with hk | ⟨x, _, rfl⟩
  · obtain ⟨o, ho, hs⟩ := hk p obj' hp'
    rw [hp] at ho
    cases ho
    exact hs
  · rw [deref_append_left _ (deref_lt hp), hp] at hp'
    cases hp'
    exact same_identity_refl _

/-- C2: in every table reachable from the empty table by `erts_put_fun_entry2`,
`erts_get_fun_entry`, `erts_erase_fun_entry`, `erts_fun_purge_prepare`,
`erts_fun_purge_abort_prepare`, `erts_fun_purge_abort_finalize` and
`erts_fun_purge_complete`, no two live entries have the same identity
`(module, old_uniq, index)`, and no further operation changes the module,
`old_uniq` or `index` of an entry that is live before and after it. -/
theorem registry_invariant (unloaded_fun : Nat) (t : Hash) (h : Reachable unloaded_fun t) :
    (∀ p q a b, deref t p = some a → deref t q = some b →
        a.module = b.module ∧ a.old_uniq = b.old_uniq ∧ a.index = b.index → p = q) ∧
    (∀ t', Step unloaded_fun t t' → ∀ p obj obj', deref t p = some obj →
        deref t' p = some obj' →
        obj'.module = obj.module ∧ obj'.old_uniq = obj.old_uniq ∧ obj'.index = obj.index) := by
  constructor
  · have hinv : fun_table_inv t := by
      induction h with
      | init => exact List.Pairwise.nil
      | step _ hs ih => exact fun_table_inv_step hs ih
    exact (fun_table_inv_iff t).1 hinv
  · intro t' hs p obj obj' hp hp'
    have := step_identity hs hp hp'
    exact ⟨this.1.symm, this.2.1.symm, this.2.2.symm⟩

/-- Witness for C2: the table after `erts_put_fun_entry2` for `(1, 7, 0)` on the
empty table satisfies the invariant, and a following `erts_get_fun_entry` keeps
the identity of the entry at pointer `0`. -/
theorem registry_invariant_witness :
    fun_table_inv (erts_put_fun_entry2 1000 [] 1 7 0 [] 0 0).1 ∧
    deref (erts_put_fun_entry2 1000 [] 1 7 0 [] 0 0).1 0 =
      some { uniq := [], index := 0, old_uniq := 7, old_index := 0, address := 1000,
             arity := 0, module := 1, refc := 1, pend_purge_address := 0 } ∧
    deref (erts_get_fun_entry (erts_put_fun_entry2 1000 [] 1 7 0 [] 0 0).1 1 7 0).1 0 =
      some { uniq := [], index := 0, old_uniq := 7, old_index := 0, address := 1000,
             arity := 0, module := 1, refc := 2, pend_purge_address := 0 } ∧
    (({ uniq := [], index := 0, old_uniq := 7, old_index := 0, address := 1000,
        arity := 0, module := 1, refc := 2, pend_purge_address := 0 } : ErlFunEntry).module =
      ({ uniq := [], index := 0, old_uniq := 7, old_index := 0, address := 1000,
         arity := 0, module := 1, refc := 1, pend_purge_address := 0 } : ErlFunEntry).module ∧
     ({ uniq := [], index := 0, old_uniq := 7, old_index := 0, address := 1000,
        arity := 0, module := 1, refc := 2, pend_purge_address := 0 } : ErlFunEntry).old_uniq =
      ({ uniq := [], index := 0, old_uniq := 7, old_index := 0, address := 1000,
         arity := 0, module := 1, refc := 1, pend_purge_address := 0 } : ErlFunEntry).old_uniq ∧
     ({ uniq := [], index := 0, old_uniq := 7, old_index := 0, address := 1000,
        arity := 0, module := 1, refc := 2, pend_purge_address := 0 } : ErlFunEntry).index =
      ({ uniq := [], index := 0, old_uniq := 7, old_index := 0, address := 1000,
         arity := 0, module := 1, refc := 1, pend_purge_address := 0 } : ErlFunEntry).index) :=
  ⟨(fun_table_inv_iff _).2
      (registry_invariant 1000 _ (Reachable.step Reachable.init (Step.put [] 1 7 0 [] 0 0))).1,
    by decide, by decide,
    (registry_invariant 1000 (erts_put_fun_entry2 1000 [] 1 7 0 [] 0 0).1
      (Reachable.step Reachable.init (Step.put [] 1 7 0 [] 0 0))).2
      (erts_get_fun_entry (erts_put_fun_entry2 1000 [] 1 7 0 [] 0 0).1 1 7 0).1
      (Step.get _ 1 7 0) 0 _ _ (by decide) (by decide)⟩

/-! ## Reference-count accounting -/

theorem hash_find_append (tmpl : ErlFunEntry) (t s : Hash) (p : Nat) :
    hash_find tmpl p (t ++ s) =
      match hash_find tmpl p t with
      | some q => some q
      | none => hash_find tmpl (p + t.length) s := by
  induction t generalizing p with
  | nil => simp [hash_find]
  | cons x rest ih =>
    have hlen : p + (x :: rest).length = p + 1 + rest.length := by
      simp only [List.length_cons]; omega
    rw [hlen]
    cases x with
    | none =>
      show hash_find tmpl (p + 1) (rest ++ s) = _
      rw [ih]
      rfl
    | some b =>
      show (if fun_cmp tmpl b = 0 then some p else hash_find tmpl (p + 1) (rest ++ s)) = _
      rw [ih]
      simp only [hash_find]
      split <;> rfl

theorem hash_get_append_singleton {t : Hash} (obj : ErlFunEntry) {mod : Nat}
    {old_uniq index : Int}
    (habsent : ∀ p b, deref t p = some b →
      ¬ (b.module = mod ∧ b.old_uniq = old_uniq ∧ b.index = index))
    (hid : obj.module = mod ∧ obj.old_uniq = old_uniq ∧ obj.index = index) :
    hash_get (t ++ [some obj]) (fun_template mod old_uniq index) = some t.length := by
  unfold hash_get
  rw [hash_find_append]
  have hnone : hash_find (fun_template mod old_uniq index) 0 t = none := by
    apply hash_find_eq_none
    intro i b hi hc
    rw [fun_cmp_eq_zero_iff] at hc
    exact habsent i b hi ⟨hc.1.symm, hc.2.1.symm, hc.2.2.symm⟩
  rw [hnone]
  have hc : fun_cmp (fun_template mod old_uniq index) obj = 0 := by
    rw [fun_cmp_eq_zero_iff]
    exact ⟨hid.1.symm, hid.2.1.symm, hid.2.2.symm⟩
  simp [hash_find, hc]

theorem owners_cons (op : FunOp) (ops : List FunOp) :
    owners (op :: ops) = (if op.is_creation then 1 else 0) - (if op.is_release then 1 else 0)
      + owners ops := by
  unfold owners creations releases
  rw [List.countP_cons, List.countP_cons]
  cases op <;> simp [FunOp.is_creation, FunOp.is_release] <;> omega

theorem owners_nil : owners [] = 0 := rfl

/-- While the count stays at `1` or more, a run on a live entry only moves its
count: by `+1` for each creation and `-1` for each release. -/
theorem run_ops_live (unloaded_fun : Nat) (t : Hash) (mod : Nat) (old_uniq index : Int)
    (habsent : ∀ p b, deref t p = some b →
      ¬ (b.module = mod ∧ b.old_uniq = old_uniq ∧ b.index = index))
    (ops : List FunOp) (obj : ErlFunEntry)
    (hid : obj.module = mod ∧ obj.old_uniq = old_uniq ∧ obj.index = index)
    (hpos : ∀ k, k ≤ ops.length → 1 ≤ obj.refc + owners (ops.take k)) :
    ∃ obj', run_ops unloaded_fun mod old_uniq index (t ++ [some obj]) (some t.length) ops =
        .returned (t ++ [some obj']) ∧
      (obj'.module = mod ∧ obj'.old_uniq = old_uniq ∧ obj'.index = index) ∧
      obj'.refc = obj.refc + owners ops := by
  induction ops generalizing obj with
  | nil => exact ⟨obj, rfl, hid, by simp [owners_nil]⟩
  | cons op rest ih =>
    have h0 : 1 ≤ obj.refc := by simpa [owners_nil] using hpos 0 (Nat.zero_le _)
    have hstep : ∀ k, k ≤ rest.length →
        1 ≤ obj.refc + ((if op.is_creation then 1 else 0) - (if op.is_release then 1 else 0)
          + owners (rest.take k)) := by
      intro k hk
      have := hpos (k + 1) (by simp; omega)
      rwa [List.take_succ_cons, owners_cons] at this
    have hget := hash_get_append_singleton obj habsent hid
    have hderef := deref_append_length t obj
    cases op with
    | put old_index uniq arity =>
      have hrun : run_ops unloaded_fun mod old_uniq index (t ++ [some obj]) (some t.length)
          (FunOp.put old_index uniq arity :: rest) =
          run_ops unloaded_fun mod old_uniq index
            (t ++ [some (put_update uniq old_index arity obj)]) (some t.length) rest := by
        rw [run_ops, erts_put_fun_entry2_eq]
        simp only [hash_put, hget]
        rw [modify_of_deref _ hderef, set_append_length]
      have hrefc : (put_update uniq old_index arity obj).refc = obj.refc + 1 := by
        simp only [put_update]
        rw [if_neg (by omega)]
      obtain ⟨obj', hr, hid', hc⟩ := ih (put_update uniq old_index arity obj) hid (by
        intro k hk
        have := hstep k hk
        simp only [FunOp.is_creation, FunOp.is_release] at this
        rw [hrefc]
        simp at this
        omega)
      refine ⟨obj', by rw [hrun, hr], hid', ?_⟩
      rw [hc, hrefc, owners_cons]
      simp [FunOp.is_creation, FunOp.is_release]
      omega
    | get =>
      have hrun : run_ops unloaded_fun mod old_uniq index (t ++ [some obj]) (some t.length)
          (FunOp.get :: rest) =
          run_ops unloaded_fun mod old_uniq index
            (t ++ [some (get_update obj)]) (some t.length) rest := by
        rw [run_ops, erts_get_fun_entry_eq]
        simp only [hget]
        rw [modify_of_deref _ hderef, set_append_length]
      have hrefc : (get_update obj).refc = obj.refc + 1 := by
        simp only [get_update]
        rw [if_neg (by omega)]
      obtain ⟨obj', hr, hid', hc⟩ := ih (get_update obj) hid (by
        intro k hk
        have := hstep k hk
        simp only [FunOp.is_creation, FunOp.is_release] at this
        rw [hrefc]
        simp at this
        omega)
      refine ⟨obj', by rw [hrun, hr], hid', ?_⟩
      rw [hc, hrefc, owners_cons]
      simp [FunOp.is_creation, FunOp.is_release]
      omega
    | erase =>
      have h1 := hstep 0 (Nat.zero_le _)
      simp [FunOp.is_creation, FunOp.is_release, owners_nil] at h1
      have hrun : run_ops unloaded_fun mod old_uniq index (t ++ [some obj]) (some t.length)
          (FunOp.erase :: rest) =
          run_ops unloaded_fun mod old_uniq index
            (t ++ [some { obj with refc := obj.refc - 1 }]) (some t.length) rest := by
        rw [run_ops, erts_erase_fun_entry_of_deref _ hderef]
        rw [if_neg (by omega), set_append_length]
      obtain ⟨obj', hr, hid', hc⟩ := ih { obj with refc := obj.refc - 1 } hid (by
        intro k hk
        have := hstep k hk
        simp only [FunOp.is_creation, FunOp.is_release] at this
        simp at this
        show 1 ≤ obj.refc - 1 + owners (List.take k rest)
        omega)
      refine ⟨obj', by rw [hrun, hr], hid', ?_⟩
      rw [hc, owners_cons]
      simp [FunOp.is_creation, FunOp.is_release]
      omega

/-- C3 (as amended): on an identity `(mod, old_uniq, index)` that no live entry
has, every sequence of calls that starts with `erts_put_fun_entry2` and goes on
with creations (`erts_put_fun_entry2`, `erts_get_fun_entry`) and releases
(`erts_erase_fun_entry`), and in which creations minus releases stays at `1`
or more, returns with a table that holds exactly one live entry for the
identity, whose reference count is the number of creations minus the number of
releases. -/
theorem refc_accounting (unloaded_fun : Nat) (t : Hash) (mod : Nat) (old_uniq index : Int)
    (habsent : ∀ p b, deref t p = some b →
      ¬ (b.module = mod ∧ b.old_uniq = old_uniq ∧ b.index = index))
    (old_index : Int) (uniq : List Nat) (arity : Int) (rest : List FunOp)
    (hpos : stays_positive (FunOp.put old_index uniq arity :: rest)) :
    ∃ t', run_ops unloaded_fun mod old_uniq index t none
        (FunOp.put old_index uniq arity :: rest) = .returned t' ∧
      one_entry_with_count t' mod old_uniq index
        (owners (FunOp.put old_index uniq arity :: rest)) := by
  have hput : erts_put_fun_entry2 unloaded_fun t mod old_uniq old_index uniq index arity =
      (t ++ [some { uniq := uniq, index := index, old_uniq := old_uniq, old_index := old_index,
                    address := unloaded_fun, arity := (arity % 2 ^ 64).toNat, module := mod,
                    refc := 1, pend_purge_address := NULL }], t.length) := by
    rw [erts_put_fun_entry2_of_absent unloaded_fun t mod old_uniq old_index uniq index arity
      habsent]
    rfl
  obtain ⟨obj', hr, hid', hc⟩ := run_ops_live unloaded_fun t mod old_uniq index habsent rest
    { uniq := uniq, index := index, old_uniq := old_uniq, old_index := old_index,
      address := unloaded_fun, arity := (arity % 2 ^ 64).toNat, module := mod,
      refc := 1, pend_purge_address := NULL } ⟨rfl, rfl, rfl⟩ (by
        intro k hk
        have := hpos (k + 1) (by omega) (by simp; omega)
        rw [List.take_succ_cons, owners_cons] at this
        simp [FunOp.is_creation, FunOp.is_release] at this
        show 1 ≤ 1 + owners (List.take k rest)
        omega)
  refine ⟨t ++ [some obj'], ?_, t.length, obj', deref_append_length t obj', hid'.1, hid'.2.1,
    hid'.2.2, ?_, ?_⟩
  · rw [run_ops, hput]
    exact hr
  · rw [hc, owners_cons]
    simp [FunOp.is_creation, FunOp.is_release]
  · intro q b hq hb
    rcases deref_append_singleton hq with h1 | ⟨h1, _⟩
    · exact absurd hb (habsent q b h1)
    · exact h1

/-- Witness for C3: two `erts_put_fun_entry2` calls for the new identity
`(1, 7, 0)` on the empty table leave one entry with count `2`. -/
theorem refc_accounting_witness :
    ∃ t', run_ops 1000 1 7 0 [] none [FunOp.put 0 [] 0, FunOp.put 0 [] 0] = .returned t' ∧
      one_entry_with_count t' 1 7 0 2 :=
  refc_accounting 1000 [] 1 7 0 (by intro p b h; simp [deref] at h) 0 [] 0 [FunOp.put 0 [] 0]
    (by
      intro k h1 h2
      have hk : k = 1 ∨ k = 2 := by simp at h2; omega
      rcases hk with rfl | rfl <;> decide)

/-- Counterexample for C3 as stated: a sequence may start with the creation
`erts_get_fun_entry`; on the empty table that call finds nothing and makes
nothing, so after the one-call sequence no entry with the identity exists. -/
theorem refc_accounting_lookup_first :
    ¬ (∀ ops : List FunOp, (∃ op rest, ops = op :: rest ∧ op.is_creation = true) →
        stays_positive ops →
        ∃ t', run_ops 1000 1 7 0 [] none ops = .returned t' ∧
          one_entry_with_count t' 1 7 0 (owners ops)) := by
  intro h
  obtain ⟨t', hr, fe, obj, hd, _⟩ := h [FunOp.get] ⟨FunOp.get, [], rfl, rfl⟩ (by
    intro k h1 h2
    have hk : k = 1 := by simp at h2; omega
    subst hk
    decide)
  have ht : t' = [] := by
    have : run_ops 1000 1 7 0 [] none [FunOp.get] = .returned [] := by decide
    rw [this] at hr
    cases hr
    rfl
  rw [ht] at hd
  simp [deref] at hd

/-! ## Releasing an entry -/

theorem hash_get_of_inv {t : Hash} {fe : Nat} {obj tmpl : ErlFunEntry}
    (hinv : fun_table_inv t) (hd : deref t fe = some obj) (hs : same_identity tmpl obj) :
    hash_get t tmpl = some fe := by
  cases hg : hash_get t tmpl with
  | none =>
    exact absurd ((fun_cmp_eq_zero_iff_same tmpl obj).2 hs) (hash_get_none_imp hg fe obj hd)
  | some q =>
    obtain ⟨b, hb, hc, _⟩ := hash_get_some hg
    have hsb : same_identity tmpl b := (fun_cmp_eq_zero_iff_same tmpl b).1 hc
    have := (fun_table_inv_iff t).1 hinv q fe b obj hb hd
      (same_identity_trans (same_identity_symm hsb) hs)
    rw [this]

theorem hash_erase_set_of_inv {t : Hash} {fe : Nat} {obj : ErlFunEntry} (obj1 : ErlFunEntry)
    (hinv : fun_table_inv t) (hd : deref t fe = some obj) (hs : same_identity obj obj1) :
    hash_erase (t.set fe (some obj1)) obj1 = t.set fe none := by
  have hinv1 : fun_table_inv (t.set fe (some obj1)) :=
    fun_table_inv_of_keeps_identity hinv (keeps_identity_set_some hd hs)
  have hd1 : deref (t.set fe (some obj1)) fe = some obj1 := deref_set_self _ (deref_lt hd)
  unfold hash_erase
  rw [hash_get_of_inv hinv1 hd1 (same_identity_refl obj1)]
  simp only [List.set_set]

/-- Releasing the last reference of an unloaded entry frees its slot. -/
theorem erts_erase_fun_entry_last (unloaded_fun : Nat) {t : Hash} {fe : Nat}
    {obj : ErlFunEntry} (hinv : fun_table_inv t) (hd : deref t fe = some obj)
    (haddr : obj.address = unloaded_fun) (hrefc : obj.refc - 1 ≤ 0) :
    erts_erase_fun_entry unloaded_fun t fe = .returned (t.set fe none) := by
  rw [erts_erase_fun_entry_of_deref _ hd, if_pos hrefc, if_neg (by simp [haddr]),
    hash_erase_set_of_inv { obj with refc := obj.refc - 1 } hinv hd ⟨rfl, rfl, rfl⟩]

/-- Releasing a reference that is not the last one only lowers the count. -/
theorem erts_erase_fun_entry_more (unloaded_fun : Nat) {t : Hash} {fe : Nat}
    {obj : ErlFunEntry} (hd : deref t fe = some obj) (hrefc : ¬ obj.refc - 1 ≤ 0) :
    erts_erase_fun_entry unloaded_fun t fe =
      .returned (t.set fe (some { obj with refc := obj.refc - 1 })) := by
  rw [erts_erase_fun_entry_of_deref _ hd, if_neg hrefc]

/-- C4: for a live entry `obj` at `fe` whose code address is `unloaded_fun`, in a
table that satisfies the registry invariant, `erts_erase_fun_entry` returns; the
count is lowered by exactly one; the entry is removed when the lowered count is
`0` or below and otherwise stays with only its count changed; every other slot
is as before. -/
theorem erts_erase_fun_entry_unloaded (unloaded_fun : Nat) (t : Hash) (fe : Nat)
    (obj : ErlFunEntry) (hinv : fun_table_inv t) (hd : deref t fe = some obj)
    (haddr : obj.address = unloaded_fun) :
    erts_erase_fun_entry unloaded_fun t fe =
      .returned (if obj.refc - 1 ≤ 0 then t.set fe none
        else t.set fe (some { obj with refc := obj.refc - 1 })) := by
  by_cases hrefc : obj.refc - 1 ≤ 0
  · rw [if_pos hrefc]
    exact erts_erase_fun_entry_last unloaded_fun hinv hd haddr hrefc
  · rw [if_neg hrefc]
    exact erts_erase_fun_entry_more unloaded_fun hd hrefc

/-- Witness for C4: the last reference of an unloaded entry is released and the
entry is removed, the other entry is untouched. -/
theorem erts_erase_fun_entry_unloaded_witness :
    erts_erase_fun_entry 1000
        [some { uniq := [], index := 0, old_uniq := 7, old_index := 0, address := 1000,
                arity := 0, module := 1, refc := 1, pend_purge_address := 0 },
         some { uniq := [], index := 1, old_uniq := 7, old_index := 1, address := 2000,
                arity := 0, module := 1, refc := 2, pend_purge_address := 0 }] 0 =
      .returned
        [none,
         some { uniq := [], index := 1, old_uniq := 7, old_index := 1, address := 2000,
                arity := 0, module := 1, refc := 2, pend_purge_address := 0 }] :=
  erts_erase_fun_entry_unloaded 1000 _ 0
    { uniq := [], index := 0, old_uniq := 7, old_index := 0, address := 1000,
      arity := 0, module := 1, refc := 1, pend_purge_address := 0 }
    (by decide) (by decide) rfl

/-! ## Entries with loaded code are never erased -/

/-- The two shapes of the table after `erts_erase_fun_entry` on a live entry: the
slot is freed (only when the address is `unloaded_fun`), or the slot holds the
entry with the lowered count. -/
theorem erts_erase_fun_entry_table (unloaded_fun : Nat) {t : Hash} {fe : Nat}
    {obj : ErlFunEntry} (hinv : fun_table_inv t) (hd : deref t fe = some obj) :
    ((erts_erase_fun_entry unloaded_fun t fe).table = t.set fe none ∧
        obj.address = unloaded_fun) ∨
      (erts_erase_fun_entry unloaded_fun t fe).table =
        t.set fe (some { obj with refc := obj.refc - 1 }) := by
  rw [erts_erase_fun_entry_of_deref _ hd]
  split
  · split
    · exact Or.inr rfl
    · next haddr =>
      left
      rw [hash_erase_set_of_inv { obj with refc := obj.refc - 1 } hinv hd ⟨rfl, rfl, rfl⟩]
      exact ⟨rfl, by simpa using haddr⟩
  · exact Or.inr rfl

theorem erase_only_unloaded (unloaded_fun : Nat) {t : Hash} (fe : Nat) {p : Nat}
    {obj : ErlFunEntry} (hinv : fun_table_inv t) (hp : deref t p = some obj)
    (hgone : deref (erts_erase_fun_entry unloaded_fun t fe).table p = none) :
    obj.address = unloaded_fun := by
  cases hd : deref t fe with
  | none =>
    rw [erts_erase_fun_entry_of_deref_none _ hd] at hgone
    rw [show (Outcome.returned t).table = t from rfl, hp] at hgone
    cases hgone
  | some o =>
    by_cases hpe : fe = p
    · subst hpe
      rw [hp] at hd
      cases hd
      rcases erts_erase_fun_entry_table unloaded_fun hinv hp with ⟨_, ha⟩ | h
      · exact ha
      · rw [h, deref_set_self _ (deref_lt hp)] at hgone
        cases hgone
    · rcases erts_erase_fun_entry_table unloaded_fun hinv hd with ⟨h, _⟩ | h
      · rw [h, deref_set_ne _ hpe, hp] at hgone
        cases hgone
      · rw [h, deref_set_ne _ hpe, hp] at hgone
        cases hgone

/-- A live entry after `erts_erase_fun_entry` was live before it, at the same
pointer and with the same address. -/
theorem erase_keeps_address (unloaded_fun : Nat) {t : Hash} (fe : Nat) (p : Nat)
    (obj' : ErlFunEntry) (hinv : fun_table_inv t)
    (hp : deref (erts_erase_fun_entry unloaded_fun t fe).table p = some obj') :
    ∃ obj, deref t p = some obj ∧ obj.address = obj'.address := by
  cases hd : deref t fe with
  | none =>
    rw [erts_erase_fun_entry_of_deref_none _ hd] at hp
    exact ⟨obj', hp, rfl⟩
  | some o =>
    by_cases hpe : fe = p
    · subst hpe
      rcases erts_erase_fun_entry_table unloaded_fun hinv hd with ⟨h, _⟩ | h
      · rw [h, deref_set_self _ (deref_lt hd)] at hp
        cases hp
      · rw [h, deref_set_self _ (deref_lt hd)] at hp
        cases hp
        exact ⟨o, hd, rfl⟩
    · rcases erts_erase_fun_entry_table unloaded_fun hinv hd with ⟨h, _⟩ | h
      · rw [h, deref_set_ne _ hpe] at hp
        exact ⟨obj', hp, rfl⟩
      · rw [h, deref_set_ne _ hpe] at hp
        exact ⟨obj', hp, rfl⟩

theorem purge_complete_only_unloaded (unloaded_fun : Nat) (funs : List Nat) {t : Hash}
    {p : Nat} {obj : ErlFunEntry} (hinv : fun_table_inv t) (hp : deref t p = some obj)
    (hgone : deref (erts_fun_purge_complete unloaded_fun t funs).table p = none) :
    obj.address = unloaded_fun := by
  induction funs generalizing t obj with
  | nil =>
    rw [erts_fun_purge_complete, show (Outcome.returned t).table = t from rfl, hp] at hgone
    cases hgone
  | cons fe rest ih =>
    cases hd : deref t fe with
    | none =>
      rw [erts_fun_purge_complete_cons_none _ _ hd] at hgone
      exact ih hinv hp hgone
    | some o =>
      rw [erts_fun_purge_complete_cons _ _ hd] at hgone
      have hinv1 : fun_table_inv
          (t.set fe (some { o with pend_purge_address := NULL, refc := o.refc - 1 })) :=
        fun_table_inv_of_keeps_identity hinv (keeps_identity_set_some hd ⟨rfl, rfl, rfl⟩)
      have hp1 : ∃ obj1,
          deref (t.set fe (some { o with pend_purge_address := NULL, refc := o.refc - 1 })) p =
            some obj1 ∧ obj1.address = obj.address := by
        by_cases hpe : fe = p
        · subst hpe
          rw [hp] at hd
          cases hd
          exact ⟨_, deref_set_self _ (deref_lt hp), rfl⟩
        · exact ⟨obj, by rw [deref_set_ne _ hpe]; exact hp, rfl⟩
      obtain ⟨obj1, hd1, ha1⟩ := hp1
      rw [← ha1]
      split at hgone
      · have hkeep := fun obj2 => erase_keeps_address unloaded_fun fe p obj2 hinv1
        have hera := erase_only_unloaded unloaded_fun fe hinv1 hd1
        have hinv2 : fun_table_inv (erts_erase_fun_entry unloaded_fun
            (t.set fe (some { o with pend_purge_address := NULL, refc := o.refc - 1 })) fe).table :=
          fun_table_inv_of_keeps_identity hinv1 (keeps_identity_erase _ _ _)
        split at hgone
        · next t2 h2 =>
          rw [h2] at hkeep hera hinv2
          cases hd2 : deref t2 p with
          | none => exact hera hd2
          | some obj2 =>
            obtain ⟨o1, ho1, ha⟩ := hkeep obj2 hd2
            rw [hd1] at ho1
            cases ho1
            rw [ha]
            exact ih hinv2 hd2 hgone
        · next t2 h2 =>
          rw [h2] at hera
          exact hera hgone
      · exact ih hinv1 hd1 hgone

/-- C5: an entry whose code address is not `unloaded_fun` is never erased.  In a
table that satisfies the registry invariant, an entry that is live before a call
of `erts_erase_fun_entry` or of `erts_fun_purge_complete` and not live at the end
of it (at the return or at the exit) had `unloaded_fun` as its address.  When
`erts_erase_fun_entry` lowers the count of an entry with another address to `0`
or below, the call ends in `erts_exit` and the entry is still in the table. -/
theorem loaded_entry_never_erased (unloaded_fun : Nat) (t : Hash) :
    (∀ fe p obj, fun_table_inv t → deref t p = some obj →
        deref (erts_erase_fun_entry unloaded_fun t fe).table p = none →
        obj.address = unloaded_fun) ∧
    (∀ funs p obj, fun_table_inv t → deref t p = some obj →
        deref (erts_fun_purge_complete unloaded_fun t funs).table p = none →
        obj.address = unloaded_fun) ∧
    (∀ fe obj, deref t fe = some obj → obj.address ≠ unloaded_fun → obj.refc - 1 ≤ 0 →
        erts_erase_fun_entry unloaded_fun t fe =
          .erts_exit (t.set fe (some { obj with refc := obj.refc - 1 })) ∧
        deref (t.set fe (some { obj with refc := obj.refc - 1 })) fe =
          some { obj with refc := obj.refc - 1 }) := by
  refine ⟨?_, ?_, ?_⟩
  · intro fe p obj hinv hp hgone
    exact erase_only_unloaded unloaded_fun fe hinv hp hgone
  · intro funs p obj hinv hp hgone
    exact purge_complete_only_unloaded unloaded_fun funs hinv hp hgone
  · intro fe obj hd haddr hrefc
    rw [erts_erase_fun_entry_of_deref _ hd, if_pos hrefc, if_pos haddr]
    exact ⟨rfl, deref_set_self _ (deref_lt hd)⟩

/-- Witness for C5: releasing the last reference of an entry whose address is
`2000`, not `unloaded_fun = 1000`, ends in `erts_exit` with the entry in place;
and an entry that a purge completion removes had the address `1000`. -/
theorem loaded_entry_never_erased_witness :
    (erts_erase_fun_entry 1000
        [some { uniq := [], index := 1, old_uniq := 7, old_index := 1, address := 2000,
                arity := 0, module := 1, refc := 1, pend_purge_address := 0 }] 0 =
      .erts_exit
        ([some { uniq := [], index := 1, old_uniq := 7, old_index := 1, address := 2000,
                 arity := 0, module := 1, refc := 1, pend_purge_address := 0 }].set 0
          (some { uniq := [], index := 1, old_uniq := 7, old_index := 1, address := 2000,
                  arity := 0, module := 1, refc := 1 - 1, pend_purge_address := 0 })) ∧
      deref
        ([some { uniq := [], index := 1, old_uniq := 7, old_index := 1, address := 2000,
                 arity := 0, module := 1, refc := 1, pend_purge_address := 0 }].set 0
          (some { uniq := [], index := 1, old_uniq := 7, old_index := 1, address := 2000,
                  arity := 0, module := 1, refc := 1 - 1, pend_purge_address := 0 })) 0 =
        some { uniq := [], index := 1, old_uniq := 7, old_index := 1, address := 2000,
               arity := 0, module := 1, refc := 1 - 1, pend_purge_address := 0 }) ∧
    ({ uniq := [], index := 0, old_uniq := 7, old_index := 0, address := 1000,
       arity := 0, module := 1, refc := 1, pend_purge_address := 5 } : ErlFunEntry).address =
      1000 :=
  ⟨(loaded_entry_never_erased 1000 _).2.2 0
      { uniq := [], index := 1, old_uniq := 7, old_index := 1, address := 2000,
        arity := 0, module := 1, refc := 1, pend_purge_address := 0 }
      (by decide) (by decide) (by decide),
   (loaded_entry_never_erased 1000
      [some { uniq := [], index := 0, old_uniq := 7, old_index := 0, address := 1000,
              arity := 0, module := 1, refc := 1, pend_purge_address := 5 }]).2.1 [0] 0 _
      (by decide) (by decide) (by decide)⟩

/-! ## Preparing a purge -/

/-- C6: `erts_fun_purge_prepare start end_` maps the table slot by slot: a live
entry whose address `a` satisfies `start ≤ a < end_` gets
`pend_purge_address = a` and `address = unloaded_fun`, every other live entry
and every free slot is as before, so no entry is added or removed and no
reference count changes; the purge state receives exactly the pointers of the
entries in the range.  With the entries `(1, 7, 0)` at address `2000` and
`(1, 7, 1)` at address `3000` and the range `[2000, 2008)`, the first entry is
moved to pending purge and the second keeps address and pending field. -/
theorem erts_fun_purge_prepare_moves_range (unloaded_fun : Nat) (t : Hash) (start end_ : Nat) :
    (erts_fun_purge_prepare unloaded_fun t start end_).1 =
        t.map (Option.map (fun obj =>
          if start ≤ obj.address ∧ obj.address < end_ then
            { obj with pend_purge_address := obj.address, address := unloaded_fun }
          else obj)) ∧
    (∀ fe, fe ∈ (erts_fun_purge_prepare unloaded_fun t start end_).2 ↔
        ∃ obj, deref t fe = some obj ∧ start ≤ obj.address ∧ obj.address < end_) ∧
    erts_fun_purge_prepare 1000
        [some { uniq := [], index := 0, old_uniq := 7, old_index := 0, address := 2000,
                arity := 0, module := 1, refc := 2, pend_purge_address := NULL },
         some { uniq := [], index := 1, old_uniq := 7, old_index := 1, address := 3000,
                arity := 0, module := 1, refc := 2, pend_purge_address := NULL }]
        2000 2008 =
      ([some { uniq := [], index := 0, old_uniq := 7, old_index := 0, address := 1000,
               arity := 0, module := 1, refc := 2, pend_purge_address := 2000 },
        some { uniq := [], index := 1, old_uniq := 7, old_index := 1, address := 3000,
               arity := 0, module := 1, refc := 2, pend_purge_address := NULL }], [0]) := by
  refine ⟨?_, ?_, ?_⟩
  · rw [erts_fun_purge_prepare_fst]
    rfl
  · exact mem_erts_fun_purge_prepare_snd unloaded_fun t start end_
  · decide

/-! ## Aborting a purge -/

theorem getElem?_modify (t : Hash) (fe i : Nat) (f : ErlFunEntry → ErlFunEntry) :
    (modify t fe f)[i]? = if i = fe then (t[i]?).map (Option.map f) else t[i]? := by
  cases hd : deref t fe with
  | none =>
    rw [modify_of_deref_none f hd]
    split
    · next h =>
      subst h
      unfold deref at hd
      cases hx : t[i]? with
      | none => rfl
      | some x =>
        cases x with
        | none => rfl
        | some obj => rw [hx] at hd; cases hd
    · rfl
  | some obj =>
    rw [modify_of_deref f hd, List.getElem?_set]
    by_cases h : i = fe
    · subst h
      rw [if_pos rfl, if_pos (deref_lt hd), if_pos rfl, deref_eq_some_iff.1 hd]
      rfl
    · rw [if_neg (fun h' => h h'.symm), if_neg h]

theorem getElem?_foldl_modify (f : ErlFunEntry → ErlFunEntry) (hf : ∀ x, f (f x) = f x)
    (funs : List Nat) (t : Hash) (i : Nat) :
    (funs.foldl (fun t fe => modify t fe f) t)[i]? =
      if i ∈ funs then (t[i]?).map (Option.map f) else t[i]? := by
  induction funs generalizing t with
  | nil => simp
  | cons fe rest ih =>
    rw [List.foldl_cons, ih, getElem?_modify]
    have hidem : ∀ x : Option (Option ErlFunEntry),
        (x.map (Option.map f)).map (Option.map f) = x.map (Option.map f) := by
      intro x
      cases x with
      | none => rfl
      | some y =>
        cases y with
        | none => rfl
        | some z => simp [hf]
    by_cases h1 : i = fe
    · subst h1
      by_cases h2 : i ∈ rest
      · simp [h2, hidem]
      · simp [h2]
    · by_cases h2 : i ∈ rest
      · simp [h1, h2]
      · simp [h1, h2]

theorem abort_update_idem (unloaded_fun : Nat) (x : ErlFunEntry) :
    abort_update unloaded_fun (abort_update unloaded_fun x) = abort_update unloaded_fun x := by
  unfold abort_update
  by_cases h : x.address = unloaded_fun
  · simp only [h, if_true]
    split <;> rfl
  · simp only [h, if_false]

theorem finalize_update_idem (x : ErlFunEntry) :
    finalize_update (finalize_update x) = finalize_update x := rfl

theorem getElem?_abort_prepare (unloaded_fun : Nat) (t : Hash) (funs : List Nat) (i : Nat) :
    (erts_fun_purge_abort_prepare unloaded_fun t funs)[i]? =
      if i ∈ funs then (t[i]?).map (Option.map (abort_update unloaded_fun)) else t[i]? := by
  rw [erts_fun_purge_abort_prepare_eq]
  exact getElem?_foldl_modify _ (abort_update_idem unloaded_fun) funs t i

theorem getElem?_abort_finalize (t : Hash) (funs : List Nat) (i : Nat) :
    (erts_fun_purge_abort_finalize t funs)[i]? =
      if i ∈ funs then (t[i]?).map (Option.map finalize_update) else t[i]? := by
  rw [erts_fun_purge_abort_finalize_eq]
  exact getElem?_foldl_modify _ finalize_update_idem funs t i

/-- Prepare followed by abort-prepare on the flagged entries, slot by slot: a
flagged entry has its address back and the old address still in the pending
field; every other slot is as before the prepare. -/
theorem getElem?_prepare_abort (unloaded_fun : Nat) (t : Hash) (start end_ : Nat) (i : Nat) :
    (erts_fun_purge_abort_prepare unloaded_fun
        (erts_fun_purge_prepare unloaded_fun t start end_).1
        (erts_fun_purge_prepare unloaded_fun t start end_).2)[i]? =
      (t[i]?).map (Option.map (fun obj =>
        if start ≤ obj.address ∧ obj.address < end_ then
          { obj with pend_purge_address := obj.address }
        else obj)) := by
  rw [getElem?_abort_prepare, erts_fun_purge_prepare_fst, List.getElem?_map]
  have hmem := mem_erts_fun_purge_prepare_snd unloaded_fun t start end_ i
  cases hx : t[i]? with
  | none => simp
  | some x =>
    cases x with
    | none => simp
    | some obj =>
      have hd : deref t i = some obj := deref_eq_some_iff.2 hx
      by_cases hr : start ≤ obj.address ∧ obj.address < end_
      · rw [if_pos (hmem.2 ⟨obj, hd, hr⟩)]
        simp [purge_update, abort_update, hr]
      · have hni : ¬ i ∈ (erts_fun_purge_prepare unloaded_fun t start end_).2 := by
          intro hin
          obtain ⟨o, ho, hro⟩ := hmem.1 hin
          rw [hd] at ho
          cases ho
          exact hr hro
        rw [if_neg hni]
        simp [purge_update, hr]

/-- C7: prepare/abort round trip.  When every pending-purge field is `NULL` and
`unloaded_fun` lies outside `[start, end_)`, then after
`erts_fun_purge_prepare start end_` and `erts_fun_purge_abort_prepare` on the
entries it flagged every entry has the address it had before the prepare, and
after `erts_fun_purge_abort_finalize` on the same entries the table is equal to
the table before the prepare. -/
theorem purge_prepare_abort_roundtrip (unloaded_fun : Nat) (t : Hash) (start end_ : Nat)
    (hnull : ∀ p obj, deref t p = some obj → obj.pend_purge_address = NULL)
    (_hout : ¬ (start ≤ unloaded_fun ∧ unloaded_fun < end_)) :
    (∀ p obj, deref t p = some obj →
      ∃ obj', deref (erts_fun_purge_abort_prepare unloaded_fun
          (erts_fun_purge_prepare unloaded_fun t start end_).1
          (erts_fun_purge_prepare unloaded_fun t start end_).2) p = some obj' ∧
        obj'.address = obj.address) ∧
    erts_fun_purge_abort_finalize
      (erts_fun_purge_abort_prepare unloaded_fun
        (erts_fun_purge_prepare unloaded_fun t start end_).1
        (erts_fun_purge_prepare unloaded_fun t start end_).2)
      (erts_fun_purge_prepare unloaded_fun t start end_).2 = t := by
  constructor
  · intro p obj hp
    have hx := deref_eq_some_iff.1 hp
    have := getElem?_prepare_abort unloaded_fun t start end_ p
    rw [hx] at this
    simp only [Option.map_some'] at this
    refine ⟨_, deref_eq_some_iff.2 this, ?_⟩
    split <;> rfl
  · apply List.ext_getElem?
    intro i
    rw [getElem?_abort_finalize, getElem?_prepare_abort]
    have hmem := mem_erts_fun_purge_prepare_snd unloaded_fun t start end_ i
    cases hx : t[i]? with
    | none => simp
    | some x =>
      cases x with
      | none => simp
      | some obj =>
        have hd : deref t i = some obj := deref_eq_some_iff.2 hx
        have hn := hnull i obj hd
        by_cases hr : start ≤ obj.address ∧ obj.address < end_
        · rw [if_pos (hmem.2 ⟨obj, hd, hr⟩)]
          simp only [Option.map_some', if_pos hr, finalize_update]
          rw [← hn]
        · have hni : ¬ i ∈ (erts_fun_purge_prepare unloaded_fun t start end_).2 := by
            intro hin
            obtain ⟨o, ho, hro⟩ := hmem.1 hin
            rw [hd] at ho
            cases ho
            exact hr hro
          rw [if_neg hni]
          simp only [Option.map_some', if_neg hr]

/-- Witness for C7: two entries, the first in the purged range `[2000, 2008)`. -/
theorem purge_prepare_abort_roundtrip_witness :
    erts_fun_purge_abort_finalize
      (erts_fun_purge_abort_prepare 1000
        (erts_fun_purge_prepare 1000
          [some { uniq := [], index := 0, old_uniq := 7, old_index := 0, address := 2000,
                  arity := 0, module := 1, refc := 2, pend_purge_address := 0 },
           some { uniq := [], index := 1, old_uniq := 7, old_index := 1, address := 3000,
                  arity := 0, module := 1, refc := 2, pend_purge_address := 0 }] 2000 2008).1
        (erts_fun_purge_prepare 1000
          [some { uniq := [], index := 0, old_uniq := 7, old_index := 0, address := 2000,
                  arity := 0, module := 1, refc := 2, pend_purge_address := 0 },
           some { uniq := [], index := 1, old_uniq := 7, old_index := 1, address := 3000,
                  arity := 0, module := 1, refc := 2, pend_purge_address := 0 }] 2000 2008).2)
      (erts_fun_purge_prepare 1000
        [some { uniq := [], index := 0, old_uniq := 7, old_index := 0, address := 2000,
                arity := 0, module := 1, refc := 2, pend_purge_address := 0 },
         some { uniq := [], index := 1, old_uniq := 7, old_index := 1, address := 3000,
                arity := 0, module := 1, refc := 2, pend_purge_address := 0 }] 2000 2008).2 =
      [some { uniq := [], index := 0, old_uniq := 7, old_index := 0, address := 2000,
              arity := 0, module := 1, refc := 2, pend_purge_address := 0 },
       some { uniq := [], index := 1, old_uniq := 7, old_index := 1, address := 3000,
              arity := 0, module := 1, refc := 2, pend_purge_address := 0 }] :=
  (purge_prepare_abort_roundtrip 1000 _ 2000 2008
    (by
      intro p obj h
      match p with
      | 0 => rw [deref_cons_zero] at h; cases h; rfl
      | 1 => rw [deref_cons_succ, deref_cons_zero] at h; cases h; rfl
      | p + 2 => rw [deref_cons_succ, deref_cons_succ] at h; simp [deref] at h)
    (by decide)).2

/-! ## Completing a purge -/

/-- C8 (as amended): for every list `funs` without repetitions of live entries
whose address is `unloaded_fun` (as it is for every entry in pending purge), in a
table that satisfies the registry invariant, `erts_fun_purge_complete` returns;
a listed entry whose reference count was `1` before the call is removed; every
other listed entry stays, with `pend_purge_address = NULL`, its address still
`unloaded_fun` and its count lowered by one; slots that are not listed are as
before. -/
theorem erts_fun_purge_complete_listed (unloaded_fun : Nat) (t : Hash) (funs : List Nat)
    (hinv : fun_table_inv t) (hnodup : funs.Nodup)
    (hpend : ∀ fe, fe ∈ funs → ∃ obj, deref t fe = some obj ∧ obj.address = unloaded_fun) :
    ∃ t', erts_fun_purge_complete unloaded_fun t funs = .returned t' ∧
      (∀ fe obj, fe ∈ funs → deref t fe = some obj →
        deref t' fe =
          if obj.refc = 1 then none
          else some { obj with pend_purge_address := NULL, refc := obj.refc - 1 }) ∧
      (∀ p, p ∉ funs → t'[p]? = t[p]?) := by
  induction funs generalizing t with
  | nil => exact ⟨t, rfl, by simp, by simp⟩
  | cons fe rest ih =>
    obtain ⟨obj, hd, haddr⟩ := hpend fe (List.mem_cons_self _ _)
    have hfe : fe ∉ rest := (List.nodup_cons.1 hnodup).1
    have hrest : rest.Nodup := (List.nodup_cons.1 hnodup).2
    have hlt := deref_lt hd
    have hinv1 : fun_table_inv
        (t.set fe (some { obj with pend_purge_address := NULL, refc := obj.refc - 1 })) :=
      fun_table_inv_of_keeps_identity hinv (keeps_identity_set_some hd ⟨rfl, rfl, rfl⟩)
    have hd1 :
        deref (t.set fe (some { obj with pend_purge_address := NULL, refc := obj.refc - 1 })) fe =
          some { obj with pend_purge_address := NULL, refc := obj.refc - 1 } :=
      deref_set_self _ hlt
    -- the table `t2` after the first listed entry, and what it holds at `fe`
    have hstep : ∃ t2, fun_table_inv t2 ∧
        erts_fun_purge_complete unloaded_fun t (fe :: rest) =
          erts_fun_purge_complete unloaded_fun t2 rest ∧
        (deref t2 fe = if obj.refc = 1 then none
          else some { obj with pend_purge_address := NULL, refc := obj.refc - 1 }) ∧
        (∀ p, p ≠ fe → t2[p]? = t[p]?) := by
      by_cases h1 : obj.refc - 1 = 0
      · refine ⟨t.set fe none, ?_, ?_, ?_, ?_⟩
        · exact fun_table_inv_of_keeps_identity hinv (keeps_identity_set_none t fe)
        · have hlast : obj.refc - 1 - 1 ≤ 0 := by omega
          rw [erts_fun_purge_complete_cons _ _ hd, if_pos h1,
            erts_erase_fun_entry_last unloaded_fun hinv1 hd1 haddr hlast]
          simp only [List.set_set]
        · rw [deref_set_self _ hlt, if_pos (by omega)]
        · intro p hp
          rw [List.getElem?_set_ne (fun h => hp h.symm)]
      · refine ⟨_, hinv1, ?_, ?_, ?_⟩
        · rw [erts_fun_purge_complete_cons _ _ hd, if_neg h1]
        · rw [hd1, if_neg (by omega)]
        · intro p hp
          rw [List.getElem?_set_ne (fun h => hp h.symm)]
    obtain ⟨t2, hinv2, hrun, hfe2, hframe⟩ := hstep
    have hderef : ∀ p, p ≠ fe → deref t2 p = deref t p := by
      intro p hp
      unfold deref
      rw [hframe p hp]
    obtain ⟨t', hr, hlisted, hother⟩ := ih t2 hinv2 hrest (by
      intro fe' hfe'
      have hne : fe' ≠ fe := fun h => hfe (h ▸ hfe')
      rw [hderef fe' hne]
      exact hpend fe' (List.mem_cons_of_mem _ hfe'))
    refine ⟨t', by rw [hrun, hr], ?_, ?_⟩
    · intro fe' obj' hmem hd'
      rcases List.mem_cons.1 hmem with heq | hin
      · subst heq
        rw [hd] at hd'
        cases hd'
        have : deref t' fe' = deref t2 fe' := by
          unfold deref
          rw [hother fe' hfe]
        rw [this, hfe2]
      · have hne : fe' ≠ fe := fun h => hfe (h ▸ hin)
        exact hlisted fe' obj' hin (by rw [hderef fe' hne]; exact hd')
    · intro p hp
      have hpfe : p ≠ fe := fun h => hp (h ▸ List.mem_cons_self _ _)
      have hprest : p ∉ rest := fun h => hp (List.mem_cons_of_mem _ h)
      rw [hother p hprest, hframe p hpfe]

/-- Witness for C8: entry `0` has count `1` and is removed, entry `1` has count
`3` and stays with a cleared pending field. -/
theorem erts_fun_purge_complete_listed_witness :
    ∃ t', erts_fun_purge_complete 1000
        [some { uniq := [], index := 0, old_uniq := 7, old_index := 0, address := 1000,
                arity := 0, module := 1, refc := 1, pend_purge_address := 2000 },
         some { uniq := [], index := 1, old_uniq := 7, old_index := 1, address := 1000,
                arity := 0, module := 1, refc := 3, pend_purge_address := 3000 }]
        [0, 1] = .returned t' ∧
      (∀ fe obj, fe ∈ [0, 1] →
        deref
          [some { uniq := [], index := 0, old_uniq := 7, old_index := 0, address := 1000,
                  arity := 0, module := 1, refc := 1, pend_purge_address := 2000 },
           some { uniq := [], index := 1, old_uniq := 7, old_index := 1, address := 1000,
                  arity := 0, module := 1, refc := 3, pend_purge_address := 3000 }] fe =
          some obj →
        deref t' fe =
          if obj.refc = 1 then none
          else some { obj with pend_purge_address := NULL, refc := obj.refc - 1 }) ∧
      (∀ p, p ∉ [0, 1] → t'[p]? =
        [some { uniq := [], index := 0, old_uniq := 7, old_index := 0, address := 1000,
                arity := 0, module := 1, refc := 1, pend_purge_address := 2000 },
         some { uniq := [], index := 1, old_uniq := 7, old_index := 1, address := 1000,
                arity := 0, module := 1, refc := 3, pend_purge_address := 3000 }][p]?) :=
  erts_fun_purge_complete_listed 1000 _ [0, 1] (by decide) (by decide) (by
    intro fe hfe
    have h : fe = 0 ∨ fe = 1 := by simpa using hfe
    rcases h with rfl | rfl
    · exact ⟨_, rfl, rfl⟩
    · exact ⟨_, rfl, rfl⟩)

/-- Counterexample for C8 as stated: the list may name an entry twice.  With the
entry at pointer `0` in pending purge with count `2` and the list `[0, 0]`, each
occurrence drops a reference, the second one reaches `0`, and the entry is
removed although its count before the call was `2`, not `1`. -/
theorem erts_fun_purge_complete_listed_twice :
    ¬ (∀ (t : Hash) (funs : List Nat), fun_table_inv t →
        (∀ fe, fe ∈ funs → ∃ obj, deref t fe = some obj ∧ obj.address = 1000 ∧
          obj.pend_purge_address ≠ NULL) →
        ∃ t', erts_fun_purge_complete 1000 t funs = .returned t' ∧
          ∀ fe obj, fe ∈ funs → deref t fe = some obj →
            (obj.refc = 1 → deref t' fe = none) ∧
            (obj.refc ≠ 1 → ∃ obj', deref t' fe = some obj' ∧
              obj'.pend_purge_address = NULL ∧ obj'.address = 1000)) := by
  intro h
  obtain ⟨t', hr, hall⟩ := h
    [some { uniq := [], index := 0, old_uniq := 7, old_index := 0, address := 1000,
            arity := 0, module := 1, refc := 2, pend_purge_address := 2000 }]
    [0, 0] (by decide) (by
      intro fe hfe
      have h0 : fe = 0 := by simpa using hfe
      subst h0
      exact ⟨_, rfl, rfl, by decide⟩)
  have hrun : erts_fun_purge_complete 1000
      [some { uniq := [], index := 0, old_uniq := 7, old_index := 0, address := 1000,
              arity := 0, module := 1, refc := 2, pend_purge_address := 2000 }]
      [0, 0] = .returned [none] := by decide
  rw [hrun] at hr
  cases hr
  obtain ⟨obj', hd', _⟩ := (hall 0 _ (by simp) rfl).2 (by decide)
  simp [deref] at hd'

/-! ## The re-increment that closes the race -/

theorem same_identity_fun_template (obj : ErlFunEntry) :
    same_identity (fun_template obj.module obj.old_uniq obj.index) obj :=
  ⟨rfl, rfl, rfl⟩

/-- A lookup by `erts_get_fun_entry` of a live entry, in a table that satisfies
the registry invariant, finds the entry and raises its count. -/
theorem erts_get_fun_entry_live {t : Hash} {fe : Nat} {obj : ErlFunEntry}
    (hinv : fun_table_inv t) (hd : deref t fe = some obj) :
    erts_get_fun_entry t obj.module obj.old_uniq obj.index =
      (t.set fe (some (get_update obj)), some fe) := by
  rw [erts_get_fun_entry_eq, hash_get_of_inv hinv hd (same_identity_fun_template obj)]
  simp only []
  rw [modify_of_deref _ hd]

/-- A lookup by `erts_put_fun_entry2` of a live entry, in a table that satisfies
the registry invariant, finds the entry, stores the fields and raises its
count. -/
theorem erts_put_fun_entry2_live (unloaded_fun : Nat) {t : Hash} {fe : Nat} {obj : ErlFunEntry}
    (old_index : Int) (uniq : List Nat) (arity : Int)
    (hinv : fun_table_inv t) (hd : deref t fe = some obj) :
    erts_put_fun_entry2 unloaded_fun t obj.module obj.old_uniq old_index uniq obj.index arity =
      (t.set fe (some (put_update uniq old_index arity obj)), fe) := by
  rw [erts_put_fun_entry2_eq]
  unfold hash_put
  rw [hash_get_of_inv hinv hd (same_identity_fun_template obj)]
  simp only []
  rw [modify_of_deref _ hd]

/-- C15: race-closing re-increment.  For a live entry whose reference count is
`0` and whose address is `unloaded_fun`, in a table that satisfies the registry
invariant: a lookup by `erts_get_fun_entry` or by `erts_put_fun_entry2` raises
the count to `2`, and the `erts_erase_fun_entry` call that follows returns with
the entry still in the table, with count `1`; without the lookup the same
`erts_erase_fun_entry` call erases the entry. -/
theorem lookup_closes_erase_race (unloaded_fun : Nat) (t : Hash) (fe : Nat) (obj : ErlFunEntry)
    (old_index : Int) (uniq : List Nat) (arity : Int)
    (hinv : fun_table_inv t) (hd : deref t fe = some obj) (hrefc : obj.refc = 0)
    (haddr : obj.address = unloaded_fun) :
    (erts_get_fun_entry t obj.module obj.old_uniq obj.index =
        (t.set fe (some { obj with refc := 2 }), some fe) ∧
      erts_erase_fun_entry unloaded_fun (t.set fe (some { obj with refc := 2 })) fe =
        .returned (t.set fe (some { obj with refc := 1 }))) ∧
    (erts_put_fun_entry2 unloaded_fun t obj.module obj.old_uniq old_index uniq obj.index arity =
        (t.set fe (some { obj with uniq := uniq, old_index := old_index,
                                   arity := (arity % 2 ^ 64).toNat, refc := 2 }), fe) ∧
      erts_erase_fun_entry unloaded_fun
          (t.set fe (some { obj with uniq := uniq, old_index := old_index,
                                     arity := (arity % 2 ^ 64).toNat, refc := 2 })) fe =
        .returned (t.set fe (some { obj with uniq := uniq, old_index := old_index,
                                             arity := (arity % 2 ^ 64).toNat, refc := 1 }))) ∧
    erts_erase_fun_entry unloaded_fun t fe = .returned (t.set fe none) := by
  have hlt := deref_lt hd
  refine ⟨⟨?_, ?_⟩, ⟨?_, ?_⟩, ?_⟩
  · rw [erts_get_fun_entry_live hinv hd]
    simp [get_update, hrefc]
  · rw [erts_erase_fun_entry_more unloaded_fun (deref_set_self _ hlt) (by simp)]
    simp [List.set_set]
  · rw [erts_put_fun_entry2_live unloaded_fun old_index uniq arity hinv hd]
    simp [put_update, hrefc]
  · rw [erts_erase_fun_entry_more unloaded_fun (deref_set_self _ hlt) (by simp)]
    simp [List.set_set]
  · exact erts_erase_fun_entry_last unloaded_fun hinv hd haddr (by rw [hrefc]; decide)

/-- Witness for C15: the entry `(1, 7, 0)` with count `0`; after
`erts_get_fun_entry` the release leaves it with count `1`, without the lookup
the release frees the slot. -/
theorem lookup_closes_erase_race_witness :
    erts_erase_fun_entry 1000
        (erts_get_fun_entry
          [some { uniq := [], index := 0, old_uniq := 7, old_index := 0, address := 1000,
                  arity := 0, module := 1, refc := 0, pend_purge_address := 0 }] 1 7 0).1 0 =
      .returned
        [some { uniq := [], index := 0, old_uniq := 7, old_index := 0, address := 1000,
                arity := 0, module := 1, refc := 1, pend_purge_address := 0 }] ∧
    erts_erase_fun_entry 1000
        [some { uniq := [], index := 0, old_uniq := 7, old_index := 0, address := 1000,
                arity := 0, module := 1, refc := 0, pend_purge_address := 0 }] 0 =
      .returned [none] :=
  have h := lookup_closes_erase_race 1000
    [some { uniq := [], index := 0, old_uniq := 7, old_index := 0, address := 1000,
            arity := 0, module := 1, refc := 0, pend_purge_address := 0 }] 0
    { uniq := [], index := 0, old_uniq := 7, old_index := 0, address := 1000,
      arity := 0, module := 1, refc := 0, pend_purge_address := 0 }
    0 [] 0 (by decide) (by decide) rfl rfl
  ⟨by rw [h.1.1]; exact h.1.2, h.2.2⟩

/-! ## What an abort changes -/

/-- C16 (as amended): `erts_fun_purge_abort_prepare` changes only listed entries
whose address is `unloaded_fun`.  A slot that is not listed is as before; a
listed entry whose address is not `unloaded_fun` is as before; a listed entry
whose address is `unloaded_fun` gets the value of its `pend_purge_address` as
address (the saved address when the entry is in pending purge) and is otherwise
as before. -/
theorem erts_fun_purge_abort_prepare_changes (unloaded_fun : Nat) (t : Hash) (funs : List Nat)
    (p : Nat) (obj : ErlFunEntry) (hd : deref t p = some obj) :
    (∀ q, q ∉ funs → (erts_fun_purge_abort_prepare unloaded_fun t funs)[q]? = t[q]?) ∧
    (p ∈ funs → obj.address ≠ unloaded_fun →
      deref (erts_fun_purge_abort_prepare unloaded_fun t funs) p = some obj) ∧
    (p ∈ funs → obj.address = unloaded_fun →
      deref (erts_fun_purge_abort_prepare unloaded_fun t funs) p =
        some { obj with address := obj.pend_purge_address }) := by
  have hx := deref_eq_some_iff.1 hd
  refine ⟨?_, ?_, ?_⟩
  · intro q hq
    rw [getElem?_abort_prepare, if_neg hq]
  · intro hp haddr
    rw [deref_eq_some_iff, getElem?_abort_prepare, if_pos hp, hx]
    simp [abort_update, haddr]
  · intro hp haddr
    rw [deref_eq_some_iff, getElem?_abort_prepare, if_pos hp, hx]
    simp [abort_update, haddr]

/-- Witness for C16: of two listed entries, the one at address `2000` is left
alone and the one in pending purge gets `3000` back; `unloaded_fun` is `1000`. -/
theorem erts_fun_purge_abort_prepare_changes_witness :
    deref (erts_fun_purge_abort_prepare 1000
        [some { uniq := [], index := 0, old_uniq := 7, old_index := 0, address := 2000,
                arity := 0, module := 1, refc := 2, pend_purge_address := 0 },
         some { uniq := [], index := 1, old_uniq := 7, old_index := 1, address := 1000,
                arity := 0, module := 1, refc := 2, pend_purge_address := 3000 }] [0, 1]) 0 =
      some { uniq := [], index := 0, old_uniq := 7, old_index := 0, address := 2000,
             arity := 0, module := 1, refc := 2, pend_purge_address := 0 } ∧
    deref (erts_fun_purge_abort_prepare 1000
        [some { uniq := [], index := 0, old_uniq := 7, old_index := 0, address := 2000,
                arity := 0, module := 1, refc := 2, pend_purge_address := 0 },
         some { uniq := [], index := 1, old_uniq := 7, old_index := 1, address := 1000,
                arity := 0, module := 1, refc := 2, pend_purge_address := 3000 }] [0, 1]) 1 =
      some { uniq := [], index := 1, old_uniq := 7, old_index := 1, address := 3000,
             arity := 0, module := 1, refc := 2, pend_purge_address := 3000 } :=
  ⟨(erts_fun_purge_abort_prepare_changes 1000 _ [0, 1] 0 _ (by decide)).2.1
      (by decide) (by decide),
   (erts_fun_purge_abort_prepare_changes 1000 _ [0, 1] 1
      { uniq := [], index := 1, old_uniq := 7, old_index := 1, address := 1000,
        arity := 0, module := 1, refc := 2, pend_purge_address := 3000 } (by decide)).2.2
      (by decide) (by decide)⟩

/-- Counterexample for C16 as stated: a listed entry that never had loaded code,
with address `unloaded_fun = 1000` and `pend_purge_address = NULL`, is not in
pending purge, yet the call sets its address to `NULL`. -/
theorem erts_fun_purge_abort_prepare_never_loaded :
    ¬ (∀ (t : Hash) (funs : List Nat) (p : Nat) (obj : ErlFunEntry),
        deref t p = some obj → p ∈ funs → obj.pend_purge_address = NULL →
        ∃ obj', deref (erts_fun_purge_abort_prepare 1000 t funs) p = some obj' ∧
          obj'.address = obj.address) := by
  intro h
  obtain ⟨obj', hd', haddr⟩ := h
    [some { uniq := [], index := 0, old_uniq := 7, old_index := 0, address := 1000,
            arity := 0, module := 1, refc := 1, pend_purge_address := 0 }]
    [0] 0 _ rfl (by decide) rfl
  have hrun : deref (erts_fun_purge_abort_prepare 1000
      [some { uniq := [], index := 0, old_uniq := 7, old_index := 0, address := 1000,
              arity := 0, module := 1, refc := 1, pend_purge_address := 0 }] [0]) 0 =
      some { uniq := [], index := 0, old_uniq := 7, old_index := 0, address := 0,
             arity := 0, module := 1, refc := 1, pend_purge_address := 0 } := by decide
  rw [hrun] at hd'
  cases hd'
  revert haddr
  decide

end ErlFun

/-! # Properties of the module assembler -/

namespace BeamAsm

/-! ## Emission keeps the function list and the section -/

theorem a_embed_nil (s : BeamModuleAssembler) : a_embed s [] = s := by
  cases s with
  | mk code cur =>
    cases code
    cases cur <;> simp [a_embed]

theorem a_embed_append (s : BeamModuleAssembler) (b1 b2 : List Nat) :
    a_embed (a_embed s b1) b2 = a_embed s (b1 ++ b2) := by
  unfold a_embed
  cases h : s.cur <;> simp [h]

@[simp] theorem a_embed_functions (s : BeamModuleAssembler) (b : List Nat) :
    (a_embed s b).functions = s.functions := by
  unfold a_embed
  cases s.cur <;> rfl

@[simp] theorem a_embed_cur (s : BeamModuleAssembler) (b : List Nat) :
    (a_embed s b).cur = s.cur := by
  unfold a_embed
  cases h : s.cur <;> simp [h]

@[simp] theorem a_bind_functions (s : BeamModuleAssembler) (l : Label) :
    (a_bind s l).functions = s.functions := by
  unfold a_bind
  split
  · rfl
  · split <;> rfl

@[simp] theorem a_bind_cur (s : BeamModuleAssembler) (l : Label) :
    (a_bind s l).cur = s.cur := by
  unfold a_bind
  split
  · rfl
  · split <;> rfl

@[simp] theorem a_newLabel_functions (s : BeamModuleAssembler) :
    (a_newLabel s).1.functions = s.functions := rfl

@[simp] theorem a_newLabel_cur (s : BeamModuleAssembler) :
    (a_newLabel s).1.cur = s.cur := rfl

@[simp] theorem a_section_functions (s : BeamModuleAssembler) (sec : SectionId) :
    (a_section s sec).functions = s.functions := rfl

@[simp] theorem a_section_cur (s : BeamModuleAssembler) (sec : SectionId) :
    (a_section s sec).cur = sec := rfl

@[simp] theorem a_align_functions (s : BeamModuleAssembler) (n : Nat) :
    (a_align s n).functions = s.functions := by
  unfold a_align
  simp

@[simp] theorem a_align_cur (s : BeamModuleAssembler) (n : Nat) :
    (a_align s n).cur = s.cur := by
  unfold a_align
  simp

/-- `embed_zeros` appends `size` zero bytes to the current section. -/
theorem embed_zeros_eq (s : BeamModuleAssembler) (size : Nat) :
    embed_zeros s size = a_embed s (List.replicate size 0) := by
  induction size using Nat.strong_induction_on generalizing s with
  | _ n ih =>
    rw [embed_zeros]
    split
    · next h =>
      have hpos : 0 < buf_size := by decide
      have hlt : n - buf_size < n := Nat.sub_lt (Nat.lt_of_lt_of_le hpos h) hpos
      rw [ih (n - buf_size) hlt, a_embed_append, ← List.replicate_add,
        Nat.add_sub_cancel' h]
    · split
      · rfl
      · next h1 h2 =>
        have : n = 0 := Nat.eq_zero_of_not_pos h2
        subst this
        exact (a_embed_nil s).symm

@[simp] theorem embed_zeros_functions (s : BeamModuleAssembler) (size : Nat) :
    (embed_zeros s size).functions = s.functions := by
  rw [embed_zeros_eq]
  simp

@[simp] theorem embed_zeros_cur (s : BeamModuleAssembler) (size : Nat) :
    (embed_zeros s size).cur = s.cur := by
  rw [embed_zeros_eq]
  simp

theorem emit_run_functions (s : BeamModuleAssembler) (op : Emit) :
    (op.run s).functions = s.functions ++ func_info_labels [op] := by
  cases op <;>
    simp [Emit.run, func_info_labels, emit_i_func_info, emit_label, emit_aligned_label,
      emit_on_load, emit_int_code_end, emit_nyi, embed_rodata, embed_bss, a_nop, a_call]
  split <;> simp

theorem emit_run_cur (s : BeamModuleAssembler) (op : Emit) (h : s.cur = .text) :
    (op.run s).cur = .text := by
  cases op <;>
    simp [Emit.run, emit_i_func_info, emit_label, emit_aligned_label,
      emit_on_load, emit_int_code_end, emit_nyi, embed_rodata, embed_bss, a_nop, a_call, h]
  split <;> simp [h]

theorem func_info_labels_cons (op : Emit) (ops : List Emit) :
    func_info_labels (op :: ops) = func_info_labels [op] ++ func_info_labels ops := by
  cases op <;> simp [func_info_labels]

theorem assemble_functions (s : BeamModuleAssembler) (ops : List Emit) :
    (assemble s ops).functions = s.functions ++ func_info_labels ops := by
  induction ops generalizing s with
  | nil => simp [assemble, func_info_labels]
  | cons op rest ih =>
    have := ih (op.run s)
    unfold assemble at this ⊢
    rw [List.foldl_cons, this, emit_run_functions, List.append_assoc, ← func_info_labels_cons]

theorem assemble_cur (s : BeamModuleAssembler) (ops : List Emit) (h : s.cur = .text) :
    (assemble s ops).cur = .text := by
  induction ops generalizing s with
  | nil => exact h
  | cons op rest ih =>
    have := ih (op.run s) (emit_run_cur s op h)
    unfold assemble at this ⊢
    rw [List.foldl_cons, this]

/-! ## The function table of the code header -/

theorem foldl_update_functions (g : Nat → Nat) (n : Nat) (hdr : BeamCodeHeader) (j : Nat) :
    ((List.range n).foldl
        (fun hdr i => { hdr with functions := Function.update hdr.functions i (g i) })
        hdr).functions j =
      if j < n then g j else hdr.functions j := by
  induction n with
  | zero => simp
  | succ n ih =>
    rw [List.range_succ, List.foldl_append]
    simp only [List.foldl_cons, List.foldl_nil]
    by_cases hj : j = n
    · subst hj
      simp
    · rw [Function.update_noteq hj, ih]
      by_cases hlt : j < n
      · rw [if_pos hlt, if_pos (by omega)]
      · rw [if_neg hlt, if_neg (by omega)]

/-- What `codegen(in_hdr, out_hdr)` leaves in the function table: entry `i` below
`functions.size()` is `getCode(functions[i])`, entry `functions.size()` is
`code.baseAddress() + a.offset()`. -/
theorem codegen_hdr_functions (s : BeamModuleAssembler) (base : Nat) (in_hdr : BeamCodeHeader) :
    (∀ i, i < s.functions.length →
      (codegen_hdr s base in_hdr).2.2.functions i =
        getCode (codegen_hdr s base in_hdr).1 (s.functions.getD i 0)) ∧
    (codegen_hdr s base in_hdr).2.2.functions s.functions.length = base + a_offset s := by
  constructor
  · intro i hi
    simp only [codegen_hdr, codegen, _codegen]
    rw [Function.update_noteq (by omega)]
    rw [foldl_update_functions (fun i => getCode _ (s.functions.getD i 0))]
    rw [if_pos hi]
  · simp only [codegen_hdr, codegen, _codegen]
    rw [Function.update_same]
    rfl

/-- C9 (as amended): for every module assembled, from an assembler that has no
function yet and emits into the text section, with `N` calls of
`emit_i_func_info` among its emissions, the header filled in by
`codegen(in_hdr, out_hdr)` has `functions[i]` equal to the address of the label
passed to the `i`-th `emit_i_func_info` call for every `i < N`, in emission
order, and `functions[N]` equal to the base address plus the emitter's offset,
which is the size of the text section; that is the total size of the finalised
block when nothing was emitted into the `rodata` section. -/
theorem codegen_function_table (s0 : BeamModuleAssembler) (ops : List Emit) (base : Nat)
    (in_hdr : BeamCodeHeader) (hnone : s0.functions = []) (htext : s0.cur = .text) :
    (∀ i, i < (func_info_labels ops).length →
      (codegen_hdr (assemble s0 ops) base in_hdr).2.2.functions i =
        getCode (codegen_hdr (assemble s0 ops) base in_hdr).1 ((func_info_labels ops).getD i 0)) ∧
    (codegen_hdr (assemble s0 ops) base in_hdr).2.2.functions (func_info_labels ops).length =
      base + (assemble s0 ops).code.text.length ∧
    ((assemble s0 ops).code.rodata = [] →
      (codegen_hdr (assemble s0 ops) base in_hdr).2.2.functions (func_info_labels ops).length =
        base + codeSize (codegen_hdr (assemble s0 ops) base in_hdr).1.code) := by
  have hfun : (assemble s0 ops).functions = func_info_labels ops := by
    rw [assemble_functions, hnone, List.nil_append]
  have hcur := assemble_cur s0 ops htext
  have hoff : a_offset (assemble s0 ops) = (assemble s0 ops).code.text.length := by
    unfold a_offset
    rw [hcur]
  obtain ⟨h1, h2⟩ := codegen_hdr_functions (assemble s0 ops) base in_hdr
  rw [hfun] at h1 h2
  rw [hoff] at h2
  refine ⟨h1, h2, ?_⟩
  intro hro
  rw [h2]
  simp [codegen_hdr, codegen, _codegen, codeSize, hro]

/-- Witness for C9: a module of one function: label `1`, its function header
(40 bytes) and a one-byte body, placed at address `4096`. -/
theorem codegen_function_table_witness :
    (codegen_hdr (assemble (BeamModuleAssembler.new 5 3)
        [Emit.aligned_label 1, Emit.i_func_info 1 5 6 0, Emit.other [0xC3]]) 4096
        { fields := [], on_load_function_ptr := 0, functions := fun _ => 0 }).2.2.functions 0 =
      4096 ∧
    (codegen_hdr (assemble (BeamModuleAssembler.new 5 3)
        [Emit.aligned_label 1, Emit.i_func_info 1 5 6 0, Emit.other [0xC3]]) 4096
        { fields := [], on_load_function_ptr := 0, functions := fun _ => 0 }).2.2.functions 1 =
      4096 + 41 :=
  ⟨(codegen_function_table (BeamModuleAssembler.new 5 3)
      [Emit.aligned_label 1, Emit.i_func_info 1 5 6 0, Emit.other [0xC3]] 4096
      { fields := [], on_load_function_ptr := 0, functions := fun _ => 0 }
      (by decide) (by decide)).1 0 (by decide),
   (codegen_function_table (BeamModuleAssembler.new 5 3)
      [Emit.aligned_label 1, Emit.i_func_info 1 5 6 0, Emit.other [0xC3]] 4096
      { fields := [], on_load_function_ptr := 0, functions := fun _ => 0 }
      (by decide) (by decide)).2.1⟩

/-- Counterexample for C9 as stated: a module with one function and one byte of
read-only data (`embed_rodata`).  The text section is 41 bytes long, so
`functions[1]` is `4096 + 41`, while the finalised block, text section and
`rodata` section, is 49 bytes long. -/
theorem codegen_function_table_rodata :
    ¬ (∀ (mod num_labels : Nat) (ops : List Emit) (base : Nat) (in_hdr : BeamCodeHeader),
        (codegen_hdr (assemble (BeamModuleAssembler.new mod num_labels) ops) base
            in_hdr).2.2.functions (func_info_labels ops).length =
          base + codeSize
            (codegen_hdr (assemble (BeamModuleAssembler.new mod num_labels) ops) base
              in_hdr).1.code) := by
  intro h
  have h1 := h 5 3
    [Emit.aligned_label 1, Emit.i_func_info 1 5 6 0, Emit.other [0xC3], Emit.rodata [42]] 4096
    { fields := [], on_load_function_ptr := 0, functions := fun _ => 0 }
  revert h1
  decide

/-! ## Resolving word patches -/

theorem write64_outside (mem : Mem) (a w x : Nat) (h : x < a ∨ a + 8 ≤ x) :
    write64 mem a w x = mem x := by
  unfold write64
  rw [if_neg (by omega)]

theorem write64_inside (mem : Mem) (a w i : Nat) (h : i < 8) :
    write64 mem a w (a + i) = w / 256 ^ i % 256 := by
  unfold write64
  rw [if_pos (by omega), Nat.add_sub_cancel_left]

theorem read64_congr (m1 m2 : Mem) (a : Nat) (h : ∀ i, i < 8 → m1 (a + i) = m2 (a + i)) :
    read64 m1 a = read64 m2 a := by
  unfold read64
  have h0 := h 0 (by omega)
  rw [Nat.add_zero] at h0
  rw [h0, h 1 (by omega), h 2 (by omega), h 3 (by omega), h 4 (by omega), h 5 (by omega),
    h 6 (by omega), h 7 (by omega)]

theorem read64_of_bytes (m : Mem) (a w : Nat) (hw : w < 2 ^ 64)
    (h : ∀ i, i < 8 → m (a + i) = w / 256 ^ i % 256) : read64 m a = w := by
  unfold read64
  have h0 := h 0 (by omega)
  rw [Nat.add_zero] at h0
  rw [h0, h 1 (by omega), h 2 (by omega), h 3 (by omega), h 4 (by omega), h 5 (by omega),
    h 6 (by omega), h 7 (by omega)]
  norm_num at hw ⊢
  omega

theorem patch_value_lt (v : Nat) (p : patch) : patch_value v p < 2 ^ 64 := by
  unfold patch_value
  have h1 : (0 : Int) ≤ ((v : Int) + p.val_offs) % 2 ^ 64 := Int.emod_nonneg _ (by norm_num)
  have h2 : ((v : Int) + p.val_offs) % 2 ^ 64 < 2 ^ 64 := Int.emod_lt_of_pos _ (by norm_num)
  omega

/-- The loop of the patch functions on intact placeholders: it runs to the end,
stores every word, and touches nothing else. -/
theorem patch_words_intact (DEBUG : Bool) (s : BeamModuleAssembler) (v : Nat)
    (ps : List patch) (mem : Mem) (h : placeholders_intact s mem ps) :
    ∃ mem', patch_words DEBUG s v ps mem = some mem' ∧ resolved s mem ps v mem' := by
  induction ps generalizing mem with
  | nil =>
    refine ⟨mem, rfl, ?_, ?_, ?_, ?_⟩
    · intro p hp; simp at hp
    · intro p hp; simp at hp
    · intro x _; rfl
    · intro _; rfl
  | cons p rest ih =>
    obtain ⟨hpw, hsent⟩ := h
    have hdisj := (List.pairwise_cons.1 hpw).1
    have hrestpw := (List.pairwise_cons.1 hpw).2
    have hp := hsent p (List.mem_cons_self _ _)
    have hrest : placeholders_intact s
        (write64 mem (patch_location s p) (patch_value v p)) rest := by
      refine ⟨hrestpw, ?_⟩
      intro q hq
      rw [← hsent q (List.mem_cons_of_mem _ hq)]
      apply read64_congr
      intro i hi
      apply write64_outside
      rcases hdisj q hq with h1 | h1 <;> omega
    obtain ⟨mem', hrun, hbytes, _, hframe, _⟩ := ih _ hrest
    have hbytes' : ∀ q, q ∈ p :: rest → ∀ i, i < 8 →
        mem' (patch_location s q + i) = patch_value v q / 256 ^ i % 256 := by
      intro q hq i hi
      rcases List.mem_cons.1 hq with rfl | hq'
      · rw [hframe _ (by
          intro r hr
          rcases hdisj r hr with h1 | h1 <;> omega)]
        exact write64_inside _ _ _ _ hi
      · exact hbytes q hq' i hi
    refine ⟨mem', ?_, hbytes', ?_, ?_, ?_⟩
    · rw [patch_words, if_neg (by rw [hp]; simp)]
      exact hrun
    · intro q hq
      exact read64_of_bytes _ _ _ (patch_value_lt v q) (hbytes' q hq)
    · intro x hx
      rw [hframe x (fun r hr => hx r (List.mem_cons_of_mem _ hr))]
      exact write64_outside _ _ _ _ (hx p (List.mem_cons_self _ _))
    · intro hnil; cases hnil

theorem umap_get_touch {β : Type} (m : List (Nat × β)) (k j : Nat) (dflt : β) :
    umap_get (umap_touch m k dflt) j dflt = umap_get m j dflt := by
  unfold umap_touch
  cases hk : m.find? (fun e => e.1 == k) with
  | some e => rfl
  | none =>
    unfold umap_get
    rw [List.find?_append]
    cases hj : m.find? (fun e => e.1 == j) with
    | some e => rfl
    | none =>
      by_cases hkj : k = j
      · simp [hkj]
      · simp [hkj]

theorem same_patch_lists_refl (s : BeamModuleAssembler) : same_patch_lists s s :=
  ⟨fun _ => rfl, fun _ => rfl, fun _ => rfl, rfl, rfl⟩

/-- C10: for each of `patchImport`, `patchLambda` and `patchLiteral`, for every
index and every final value `v`: when the recorded locations of the index are
pairwise non-overlapping and still hold the placeholder `LLONG_MAX`, the call
runs to the end, in debug and in release builds, and the code buffer afterwards
is the buffer before with the 64-bit word at each recorded location
(label address plus `ptr_offs`) replaced by `v + val_offs` modulo `2 ^ 64`, all
other bytes being unchanged; with no record for the index the buffer is
unchanged; and the patch lists of every index and category are unchanged. -/
theorem patch_resolves_placeholders (DEBUG : Bool) (s : BeamModuleAssembler) (mem : Mem)
    (index v : Nat) :
    (placeholders_intact s mem (umap_get s.imports index []) →
      ∃ s' mem', patchImport DEBUG s mem index v = some (s', mem') ∧
        resolved s mem (umap_get s.imports index []) v mem' ∧ same_patch_lists s s') ∧
    (placeholders_intact s mem (umap_get s.lambdas index []) →
      ∃ s' mem', patchLambda DEBUG s mem index v = some (s', mem') ∧
        resolved s mem (umap_get s.lambdas index []) v mem' ∧ same_patch_lists s s') ∧
    (placeholders_intact s mem (umap_get s.literals index []) →
      ∃ s' mem', patchLiteral DEBUG s mem index v = some (s', mem') ∧
        resolved s mem (umap_get s.literals index []) v mem' ∧ same_patch_lists s s') := by
  refine ⟨?_, ?_, ?_⟩
  · intro h
    obtain ⟨mem', hrun, hres⟩ := patch_words_intact DEBUG s v _ mem h
    refine ⟨_, mem', by rw [patchImport, hrun]; rfl, hres, ?_⟩
    exact ⟨fun k => umap_get_touch _ _ _ _, fun _ => rfl, fun _ => rfl, rfl, rfl⟩
  · intro h
    obtain ⟨mem', hrun, hres⟩ := patch_words_intact DEBUG s v _ mem h
    refine ⟨_, mem', by rw [patchLambda, hrun]; rfl, hres, ?_⟩
    exact ⟨fun _ => rfl, fun k => umap_get_touch _ _ _ _, fun _ => rfl, rfl, rfl⟩
  · intro h
    obtain ⟨mem', hrun, hres⟩ := patch_words_intact DEBUG s v _ mem h
    refine ⟨_, mem', by rw [patchLiteral, hrun]; rfl, hres, ?_⟩
    exact ⟨fun _ => rfl, fun _ => rfl, fun k => umap_get_touch _ _ _ _, rfl, rfl⟩

/-- Witness for C10: label `0` is bound at the start of the block at `4096`;
index `0` of `imports` has one patch record, two bytes after the label, whose
word holds `LLONG_MAX`; `patchImport(0, 7777)` in a debug build stores `7777`
there. -/
theorem patch_resolves_placeholders_witness :
    ∃ s' mem',
      patchImport true
        { BeamAssembler_init 5 with
          code := { baseAddress := 4096, text := [0x48, 0xB8] ++ le64 LLONG_MAX, rodata := [],
                    labelEntries := [some (SectionId.text, 0)] }
          imports := [(0, [{ where_ := some 0, ptr_offs := 2, val_offs := 0 }])] }
        (write64 (fun _ => 0) 4098 LLONG_MAX) 0 7777 = some (s', mem') ∧
      read64 mem' 4098 = 7777 ∧ mem' 4097 = 0 :=
  match (patch_resolves_placeholders true
      { BeamAssembler_init 5 with
        code := { baseAddress := 4096, text := [0x48, 0xB8] ++ le64 LLONG_MAX, rodata := [],
                  labelEntries := [some (SectionId.text, 0)] }
        imports := [(0, [{ where_ := some 0, ptr_offs := 2, val_offs := 0 }])] }
      (write64 (fun _ => 0) 4098 LLONG_MAX) 0 7777).1
      ⟨List.pairwise_singleton _ _, by decide⟩ with
  | ⟨s', mem', hrun, hres, _⟩ =>
    ⟨s', mem', hrun,
      hres.2.1 { where_ := some 0, ptr_offs := 2, val_offs := 0 } (List.mem_singleton.2 rfl),
      hres.2.2.1 4097 (by decide)⟩

/-! ## Patching a second time -/

theorem patch_location_congr {s s1 : BeamModuleAssembler} (h : s1.code = s.code) (p : patch) :
    patch_location s1 p = patch_location s p := by
  unfold patch_location getCodeLabel
  rw [h]

theorem patch_words_congr (DEBUG : Bool) {s s1 : BeamModuleAssembler} (h : s1.code = s.code)
    (v : Nat) (ps : List patch) (mem : Mem) :
    patch_words DEBUG s1 v ps mem = patch_words DEBUG s v ps mem := by
  induction ps generalizing mem with
  | nil => rfl
  | cons p rest ih =>
    rw [patch_words, patch_words, patch_location_congr h]
    split
    · rfl
    · exact ih _

/-- A release build checks nothing: the loop always runs to the end. -/
theorem patch_words_release (s : BeamModuleAssembler) (v : Nat) (ps : List patch) (mem : Mem) :
    ∃ mem', patch_words false s v ps mem = some mem' := by
  induction ps generalizing mem with
  | nil => exact ⟨mem, rfl⟩
  | cons p rest ih =>
    rw [patch_words, if_neg (by simp)]
    exact ih _

/-- In a debug build the loop stops at the first word that is not the
placeholder: when the locations are pairwise non-overlapping and one of them
does not hold `LLONG_MAX`, the run fails. -/
theorem patch_words_overwritten (s : BeamModuleAssembler) (v : Nat) (ps : List patch) (mem : Mem)
    (hpw : ps.Pairwise (fun p q =>
      patch_location s p + 8 ≤ patch_location s q ∨
      patch_location s q + 8 ≤ patch_location s p))
    (hbad : ∃ p, p ∈ ps ∧ read64 mem (patch_location s p) ≠ LLONG_MAX) :
    patch_words true s v ps mem = none := by
  induction ps generalizing mem with
  | nil =>
    obtain ⟨p, hp, _⟩ := hbad
    simp at hp
  | cons p rest ih =>
    have hdisj := (List.pairwise_cons.1 hpw).1
    have hrestpw := (List.pairwise_cons.1 hpw).2
    rw [patch_words]
    by_cases hp : read64 mem (patch_location s p) = LLONG_MAX
    · rw [if_neg (by rw [hp]; simp)]
      apply ih _ hrestpw
      obtain ⟨q, hq, hqbad⟩ := hbad
      rcases List.mem_cons.1 hq with rfl | hq'
      · exact absurd hp hqbad
      · refine ⟨q, hq', ?_⟩
        have : read64 (write64 mem (patch_location s p)
            (((v : Int) + p.val_offs) % 2 ^ 64).toNat) (patch_location s q) =
            read64 mem (patch_location s q) := by
          apply read64_congr
          intro i hi
          apply write64_outside
          rcases hdisj q hq' with h1 | h1 <;> omega
        rw [this]
        exact hqbad
    · rw [if_pos ⟨rfl, fun h => hp h.symm⟩]

/-- A first patch run on intact placeholders followed by a second run in a debug
build: the second run fails as soon as the first one stored a word that is not
`LLONG_MAX`. -/
theorem patch_words_twice (s s1 : BeamModuleAssembler) (hcode : s1.code = s.code)
    (mem : Mem) (ps : List patch) (v1 v2 : Nat)
    (hintact : placeholders_intact s mem ps)
    (hval : ∃ p, p ∈ ps ∧ patch_value v1 p ≠ LLONG_MAX) :
    ∃ mem1, patch_words true s v1 ps mem = some mem1 ∧
      patch_words true s1 v2 ps mem1 = none := by
  obtain ⟨mem1, hrun, _, hread, _, _⟩ := patch_words_intact true s v1 ps mem hintact
  refine ⟨mem1, hrun, ?_⟩
  rw [patch_words_congr true hcode]
  apply patch_words_overwritten s v2 ps mem1 hintact.1
  obtain ⟨p, hp, hne⟩ := hval
  exact ⟨p, hp, by rw [hread p hp]; exact hne⟩

/-- C11 (as amended): in a debug build, where `ASSERT` is checked, for each of
`patchImport`, `patchLambda` and `patchLiteral` and every index: when the
recorded locations of the index are pairwise non-overlapping and hold
`LLONG_MAX` before the first call, and the first call stores at least one word
`v1 + val_offs` (modulo `2 ^ 64`) that is not `LLONG_MAX` itself, then the first
call runs to the end and a second call on the same index, with any final value
`v2`, fails the placeholder check. -/
theorem second_patch_detected (s : BeamModuleAssembler) (mem : Mem) (index v1 v2 : Nat) :
    (placeholders_intact s mem (umap_get s.imports index []) →
      (∃ p, p ∈ umap_get s.imports index [] ∧ patch_value v1 p ≠ LLONG_MAX) →
      ∃ s1 mem1, patchImport true s mem index v1 = some (s1, mem1) ∧
        patchImport true s1 mem1 index v2 = none) ∧
    (placeholders_intact s mem (umap_get s.lambdas index []) →
      (∃ p, p ∈ umap_get s.lambdas index [] ∧ patch_value v1 p ≠ LLONG_MAX) →
      ∃ s1 mem1, patchLambda true s mem index v1 = some (s1, mem1) ∧
        patchLambda true s1 mem1 index v2 = none) ∧
    (placeholders_intact s mem (umap_get s.literals index []) →
      (∃ p, p ∈ umap_get s.literals index [] ∧ patch_value v1 p ≠ LLONG_MAX) →
      ∃ s1 mem1, patchLiteral true s mem index v1 = some (s1, mem1) ∧
        patchLiteral true s1 mem1 index v2 = none) := by
  refine ⟨?_, ?_, ?_⟩
  · intro hintact hval
    obtain ⟨mem1, h1, h2⟩ := patch_words_twice s
      { s with imports := umap_touch s.imports index [] } rfl mem _ v1 v2 hintact hval
    refine ⟨_, mem1, by rw [patchImport, h1]; rfl, ?_⟩
    rw [patchImport]
    simp only [umap_get_touch]
    rw [h2]
    rfl
  · intro hintact hval
    obtain ⟨mem1, h1, h2⟩ := patch_words_twice s
      { s with lambdas := umap_touch s.lambdas index [] } rfl mem _ v1 v2 hintact hval
    refine ⟨_, mem1, by rw [patchLambda, h1]; rfl, ?_⟩
    rw [patchLambda]
    simp only [umap_get_touch]
    rw [h2]
    rfl
  · intro hintact hval
    obtain ⟨mem1, h1, h2⟩ := patch_words_twice s
      { s with literals := umap_touch s.literals index [] } rfl mem _ v1 v2 hintact hval
    refine ⟨_, mem1, by rw [patchLiteral, h1]; rfl, ?_⟩
    rw [patchLiteral]
    simp only [umap_get_touch]
    rw [h2]
    rfl

/-- Witness for C11: the record of index `0` of `imports` is patched with `7777`
and a second `patchImport(0, 8888)` in a debug build fails the check. -/
theorem second_patch_detected_witness :
    ∃ s1 mem1,
      patchImport true
        { BeamAssembler_init 5 with
          code := { baseAddress := 4096, text := [0x48, 0xB8] ++ le64 LLONG_MAX, rodata := [],
                    labelEntries := [some (SectionId.text, 0)] }
          imports := [(0, [{ where_ := some 0, ptr_offs := 2, val_offs := 0 }])] }
        (write64 (fun _ => 0) 4098 LLONG_MAX) 0 7777 = some (s1, mem1) ∧
      patchImport true s1 mem1 0 8888 = none :=
  (second_patch_detected
      { BeamAssembler_init 5 with
        code := { baseAddress := 4096, text := [0x48, 0xB8] ++ le64 LLONG_MAX, rodata := [],
                  labelEntries := [some (SectionId.text, 0)] }
        imports := [(0, [{ where_ := some 0, ptr_offs := 2, val_offs := 0 }])] }
      (write64 (fun _ => 0) 4098 LLONG_MAX) 0 7777 8888).1
    ⟨List.pairwise_singleton _ _, by decide⟩
    ⟨{ where_ := some 0, ptr_offs := 2, val_offs := 0 }, List.mem_singleton.2 rfl, by decide⟩

/-- Counterexample for C11 as stated.  In a release build `ASSERT` is compiled
out, so the second call is not stopped and stores its value over the first one.
In a debug build the check compares with `LLONG_MAX` only, so a first call whose
stored word is `LLONG_MAX` itself is not noticed by the second call either. -/
theorem second_patch_not_detected :
    (¬ ∀ (DEBUG : Bool) (s : BeamModuleAssembler) (mem : Mem) (index v1 v2 : Nat)
        (s1 : BeamModuleAssembler) (mem1 : Mem),
        umap_get s.imports index [] ≠ [] →
        placeholders_intact s mem (umap_get s.imports index []) →
        patchImport DEBUG s mem index v1 = some (s1, mem1) →
        patchImport DEBUG s1 mem1 index v2 = none) ∧
    (¬ ∀ (s : BeamModuleAssembler) (mem : Mem) (index v1 v2 : Nat)
        (s1 : BeamModuleAssembler) (mem1 : Mem),
        umap_get s.imports index [] ≠ [] →
        placeholders_intact s mem (umap_get s.imports index []) →
        patchImport true s mem index v1 = some (s1, mem1) →
        patchImport true s1 mem1 index v2 = none) := by
  have hintact : placeholders_intact
      { BeamAssembler_init 5 with
        code := { baseAddress := 4096, text := [0x48, 0xB8] ++ le64 LLONG_MAX, rodata := [],
                  labelEntries := [some (SectionId.text, 0)] }
        imports := [(0, [{ where_ := some 0, ptr_offs := 2, val_offs := 0 }])] }
      (write64 (fun _ => 0) 4098 LLONG_MAX)
      [{ where_ := some 0, ptr_offs := 2, val_offs := 0 }] :=
    ⟨List.pairwise_singleton _ _, by decide⟩
  constructor
  · intro h
    obtain ⟨mem1, h1, _⟩ := patch_words_intact false _ 7777 _ _ hintact
    have hsecond := h false _ _ 0 7777 8888 _ mem1 (by decide) hintact
      (by rw [patchImport]; erw [h1]; rfl)
    obtain ⟨mem2, h2⟩ := patch_words_release
      { BeamAssembler_init 5 with
        code := { baseAddress := 4096, text := [0x48, 0xB8] ++ le64 LLONG_MAX, rodata := [],
                  labelEntries := [some (SectionId.text, 0)] }
        imports := umap_touch [(0, [{ where_ := some 0, ptr_offs := 2, val_offs := 0 }])] 0 [] }
      8888 [{ where_ := some 0, ptr_offs := 2, val_offs := 0 }] mem1
    rw [patchImport] at hsecond
    erw [h2] at hsecond
    cases hsecond
  · intro h
    obtain ⟨mem1, h1, _, hread, _, _⟩ := patch_words_intact true _ LLONG_MAX _ _ hintact
    have hsecond := h _ _ 0 LLONG_MAX 8888 _ mem1 (by decide) hintact
      (by rw [patchImport]; erw [h1]; rfl)
    have hintact1 : placeholders_intact
        { BeamAssembler_init 5 with
          code := { baseAddress := 4096, text := [0x48, 0xB8] ++ le64 LLONG_MAX, rodata := [],
                    labelEntries := [some (SectionId.text, 0)] }
          imports := umap_touch [(0, [{ where_ := some 0, ptr_offs := 2, val_offs := 0 }])]
            0 [] }
        mem1 [{ where_ := some 0, ptr_offs := 2, val_offs := 0 }] := by
      refine ⟨List.pairwise_singleton _ _, ?_⟩
      intro p hp
      have hp' : p = { where_ := some 0, ptr_offs := 2, val_offs := 0 } := List.mem_singleton.1 hp
      subst hp'
      have := hread _ (List.mem_singleton.2 rfl)
      exact this
    obtain ⟨mem2, h2, _⟩ := patch_words_intact true _ 8888 _ _ hintact1
    rw [patchImport] at hsecond
    erw [h2] at hsecond
    cases hsecond

/-! ## Labels made by the constructor -/

theorem label_table_succ (k : Nat) : label_table (k + 1) = label_table k ++ [(k + 1, some k)] := by
  unfold label_table
  rw [List.range'_1_concat, List.map_append]
  simp [Nat.add_comm]

theorem label_table_length (k : Nat) : (label_table k).length = k := by
  simp [label_table]

theorem label_table_find (k i : Nat) :
    (label_table k).find? (fun e => e.1 == i) =
      if 1 ≤ i ∧ i ≤ k then some (i, some (i - 1)) else none := by
  induction k with
  | zero =>
    rw [if_neg (by omega)]
    rfl
  | succ k ih =>
    rw [label_table_succ, List.find?_append, ih]
    by_cases h : 1 ≤ i ∧ i ≤ k
    · rw [if_pos h, if_pos (by omega)]
      rfl
    · rw [if_neg h]
      by_cases hk : i = k + 1
      · subst hk
        simp
      · rw [if_neg (by omega)]
        have : (k + 1 == i) = false := by simp; omega
        simp [this]

theorem umap_get_label_table (k i : Nat) :
    umap_get (label_table k) i none = if 1 ≤ i ∧ i ≤ k then some (i - 1) else none := by
  unfold umap_get
  rw [label_table_find]
  by_cases h : 1 ≤ i ∧ i ≤ k
  · rw [if_pos h, if_pos h]
  · rw [if_neg h, if_neg h]

theorem umap_set_label_table (k : Nat) :
    umap_set (label_table k) (k + 1) (some k) = label_table (k + 1) := by
  unfold umap_set
  rw [label_table_find, if_neg (by omega), label_table_succ]

/-- The assembler after `k` rounds of the constructor's loop. -/
theorem new_labels_fold (mod k : Nat) :
    (List.range' 1 k).foldl
        (fun s i =>
          { (a_newLabel s).1 with labels := umap_set (a_newLabel s).1.labels i (a_newLabel s).2 })
        (BeamAssembler_init mod) =
      { BeamAssembler_init mod with
        code := { (BeamAssembler_init mod).code with labelEntries := List.replicate k none }
        labels := label_table k } := by
  induction k with
  | zero => rfl
  | succ k ih =>
    rw [List.range'_1_concat, List.foldl_append, ih]
    simp only [List.foldl_cons, List.foldl_nil, a_newLabel, List.length_replicate]
    rw [Nat.add_comm 1 k, umap_set_label_table]
    congr 2
    exact (List.replicate_succ' ..).symm

theorem new_eq (mod num_labels : Nat) :
    BeamModuleAssembler.new mod num_labels =
      { BeamAssembler_init mod with
        code := { (BeamAssembler_init mod).code with
          labelEntries := List.replicate (num_labels - 1) none }
        labels := label_table (num_labels - 1) } :=
  new_labels_fold mod (num_labels - 1)

@[simp] theorem a_embed_labels (s : BeamModuleAssembler) (b : List Nat) :
    (a_embed s b).labels = s.labels := by
  unfold a_embed
  cases s.cur <;> rfl

@[simp] theorem a_bind_labels (s : BeamModuleAssembler) (l : Label) :
    (a_bind s l).labels = s.labels := by
  unfold a_bind
  split
  · rfl
  · split <;> rfl

theorem umap_touch_of_find {β : Type} (m : List (Nat × β)) (k : Nat) (dflt : β) (e : Nat × β)
    (h : m.find? (fun e => e.1 == k) = some e) : umap_touch m k dflt = m := by
  unfold umap_touch
  rw [h]

theorem emit_int_code_end_labels (s : BeamModuleAssembler) (nyi : List Nat) :
    (emit_int_code_end s nyi).labels =
      umap_touch (umap_set s.labels (s.labels.length + 1) (some s.code.labelEntries.length))
        (umap_set s.labels (s.labels.length + 1) (some s.code.labelEntries.length)).length
        none := by
  simp [emit_int_code_end, emit_nyi, a_newLabel]

/-- After the constructor for `num_labels ≥ 1`, `emit_int_code_end` leaves the
label table with the labels `1, ..., num_labels`. -/
theorem emit_int_code_end_new_labels (mod num_labels : Nat) (nyi : List Nat)
    (h : 1 ≤ num_labels) :
    (emit_int_code_end (BeamModuleAssembler.new mod num_labels) nyi).labels =
      label_table num_labels := by
  rw [emit_int_code_end_labels, new_eq]
  simp only [label_table_length, List.length_replicate]
  have hk : num_labels - 1 + 1 = num_labels := by omega
  have hset := umap_set_label_table (num_labels - 1)
  rw [hk] at hset
  rw [hk, hset, label_table_length]
  exact umap_touch_of_find _ _ _ _
    (by rw [label_table_find, if_pos (by omega)])

/-- C12 (as amended): for every `num_labels = n`, constructing a
`BeamModuleAssembler` allocates a label for every index in `1 .. n - 1` and for
no other index (the loop runs while `i < num_labels`); the entry for the index
`n` is made afterwards, by `emit_int_code_end`, when `n ≥ 1`. -/
theorem constructor_labels (mod n i : Nat) (nyi : List Nat) :
    (label_allocated (BeamModuleAssembler.new mod n) i = true ↔ 1 ≤ i ∧ i < n) ∧
    (1 ≤ n →
      label_allocated (emit_int_code_end (BeamModuleAssembler.new mod n) nyi) n = true) := by
  constructor
  · unfold label_allocated
    rw [new_eq]
    simp only []
    rw [umap_get_label_table]
    by_cases h : 1 ≤ i ∧ i ≤ n - 1
    · rw [if_pos h]
      simp
      omega
    · rw [if_neg h]
      simp
      omega
  · intro h
    unfold label_allocated
    rw [emit_int_code_end_new_labels mod n nyi h, umap_get_label_table, if_pos (by omega)]
    rfl

/-- Witness for C12: with `num_labels = 3` the constructor makes the labels `1`
and `2`; label `3` is there after `emit_int_code_end`. -/
theorem constructor_labels_witness :
    label_allocated (BeamModuleAssembler.new 5 3) 1 = true ∧
    label_allocated (BeamModuleAssembler.new 5 3) 2 = true ∧
    label_allocated (emit_int_code_end (BeamModuleAssembler.new 5 3) []) 3 = true :=
  ⟨(constructor_labels 5 3 1 []).1.2 (by decide),
   (constructor_labels 5 3 2 []).1.2 (by decide),
   (constructor_labels 5 3 3 []).2 (by decide)⟩

/-- Counterexample for C12 as stated: after construction with `num_labels = 3`
the label table has no entry for the index `3`. -/
theorem constructor_labels_last_missing :
    ¬ (∀ mod n i : Nat, 1 ≤ i → i ≤ n →
        label_allocated (BeamModuleAssembler.new mod n) i = true) := by
  intro h
  have h3 := h 5 3 3 (by decide) (by decide)
  revert h3
  decide

/-! ## Minimum function size -/

theorem umap_touch_of_get (m : List (Nat × Label)) (k id : Nat)
    (h : umap_get m k none = some id) : umap_touch m k none = m := by
  unfold umap_get at h
  unfold umap_touch
  cases hf : m.find? (fun e => e.1 == k) with
  | none => rw [hf] at h; cases h
  | some e => rfl

theorem a_offset_a_embed (s : BeamModuleAssembler) (b : List Nat) :
    a_offset (a_embed s b) = a_offset s + b.length := by
  unfold a_offset a_embed
  cases h : s.cur <;> simp [h]

theorem a_embed_text (s : BeamModuleAssembler) (b : List Nat) (h : s.cur = .text) :
    (a_embed s b).code.text = s.code.text ++ b := by
  unfold a_embed
  rw [h]

/-- `emit_i_nif_padding` when the entry label of the last function is bound in
the text section at `off`, at or before the emitter's offset: the text section
grows by the zero bytes that are missing up to the floor. -/
theorem emit_i_nif_padding_eq (BEAM_NATIVE_MIN_FUNC_SZ : Nat) (s : BeamModuleAssembler)
    (id off : Nat)
    (hlabel : umap_get s.labels (s.functions.getLastD 0 + 1) none = some id)
    (hbound : s.code.labelEntries[id]? = some (some (SectionId.text, off)))
    (hle : off ≤ a_offset s) (hsize : a_offset s < 2 ^ 64) :
    emit_i_nif_padding BEAM_NATIVE_MIN_FUNC_SZ s =
      a_embed s (List.replicate
        (sizeof_UWord * BEAM_NATIVE_MIN_FUNC_SZ - (a_offset s - off)) 0) := by
  have hstart : labelOffsetFromBase s.code (some id) = off := by
    unfold labelOffsetFromBase
    simp only [hbound, section_offset, Nat.zero_add]
  have hdiff : (((a_offset s : Int) - (off : Int)) % 2 ^ 64).toNat = a_offset s - off := by
    have h1 : (0 : Int) ≤ (a_offset s : Int) - (off : Int) := by omega
    have h2 : (a_offset s : Int) - (off : Int) < 2 ^ 64 := by
      have : ((a_offset s : Nat) : Int) < 2 ^ 64 := by exact_mod_cast hsize
      omega
    rw [Int.emod_eq_of_lt h1 h2]
    omega
  unfold emit_i_nif_padding
  simp only [umap_touch_of_get _ _ _ hlabel, hlabel]
  have hs : ({ s with labels := s.labels } : BeamModuleAssembler) = s := rfl
  rw [hs, hstart, hdiff]
  split
  · exact embed_zeros_eq _ _
  · next h =>
    have : sizeof_UWord * BEAM_NATIVE_MIN_FUNC_SZ - (a_offset s - off) = 0 := by omega
    rw [this]
    exact (a_embed_nil s).symm

theorem getLastD_of_ne_nil (l : List Nat) (h : l ≠ []) : l.getLastD 0 = l.getLast h := by
  rw [List.getLastD_eq_getLast?, List.getLast?_eq_getLast _ h]
  rfl

/-- C13: for every assembler state that emits into the text section, has at
least one function, and whose entry label `labels[functions.back() + 1]` is
bound in the text section at an offset `off` at or before the current offset
(a `size_t`), after `emit_i_nif_padding` the distance from that label to the
current offset is the maximum of the distance before and
`sizeof(UWord) * BEAM_NATIVE_MIN_FUNC_SZ`; the bytes added to the text section
are all zero; and nothing is emitted, the state being unchanged, when the
function body already reaches the floor. -/
theorem emit_i_nif_padding_floor (BEAM_NATIVE_MIN_FUNC_SZ : Nat) (s : BeamModuleAssembler)
    (id off : Nat) (hfun : s.functions ≠ [])
    (hlabel : umap_get s.labels (s.functions.getLast hfun + 1) none = some id)
    (hbound : s.code.labelEntries[id]? = some (some (SectionId.text, off)))
    (hle : off ≤ a_offset s) (htext : s.cur = .text) (hsize : a_offset s < 2 ^ 64) :
    a_offset (emit_i_nif_padding BEAM_NATIVE_MIN_FUNC_SZ s) - off =
        max (a_offset s - off) (sizeof_UWord * BEAM_NATIVE_MIN_FUNC_SZ) ∧
    (emit_i_nif_padding BEAM_NATIVE_MIN_FUNC_SZ s).code.text =
        s.code.text ++ List.replicate
          (sizeof_UWord * BEAM_NATIVE_MIN_FUNC_SZ - (a_offset s - off)) 0 ∧
    (sizeof_UWord * BEAM_NATIVE_MIN_FUNC_SZ ≤ a_offset s - off →
        emit_i_nif_padding BEAM_NATIVE_MIN_FUNC_SZ s = s) := by
  have heq := emit_i_nif_padding_eq BEAM_NATIVE_MIN_FUNC_SZ s id off
    (by rw [getLastD_of_ne_nil _ hfun]; exact hlabel) hbound hle hsize
  rw [heq]
  refine ⟨?_, a_embed_text s _ htext, ?_⟩
  · rw [a_offset_a_embed, List.length_replicate]
    omega
  · intro hreach
    have : sizeof_UWord * BEAM_NATIVE_MIN_FUNC_SZ - (a_offset s - off) = 0 := by omega
    rw [this]
    exact a_embed_nil s

/-- Witness for C13: a function whose entry label `2` is bound at offset `40` and
whose body is one byte long is padded, with `BEAM_NATIVE_MIN_FUNC_SZ = 30`, up to
`8 * 30 = 240` bytes after the label. -/
theorem emit_i_nif_padding_floor_witness :
    a_offset (emit_i_nif_padding 30 (assemble (BeamModuleAssembler.new 5 3)
        [Emit.aligned_label 1, Emit.i_func_info 1 5 6 0, Emit.aligned_label 2,
          Emit.other [0xC3]])) - 40 =
      max (a_offset (assemble (BeamModuleAssembler.new 5 3)
        [Emit.aligned_label 1, Emit.i_func_info 1 5 6 0, Emit.aligned_label 2,
          Emit.other [0xC3]]) - 40) (sizeof_UWord * 30) ∧
    (emit_i_nif_padding 30 (assemble (BeamModuleAssembler.new 5 3)
        [Emit.aligned_label 1, Emit.i_func_info 1 5 6 0, Emit.aligned_label 2,
          Emit.other [0xC3]])).code.text =
      (assemble (BeamModuleAssembler.new 5 3)
        [Emit.aligned_label 1, Emit.i_func_info 1 5 6 0, Emit.aligned_label 2,
          Emit.other [0xC3]]).code.text ++ List.replicate
        (sizeof_UWord * 30 - (a_offset (assemble (BeamModuleAssembler.new 5 3)
          [Emit.aligned_label 1, Emit.i_func_info 1 5 6 0, Emit.aligned_label 2,
            Emit.other [0xC3]]) - 40)) 0 :=
  ⟨(emit_i_nif_padding_floor 30 (assemble (BeamModuleAssembler.new 5 3)
      [Emit.aligned_label 1, Emit.i_func_info 1 5 6 0, Emit.aligned_label 2,
        Emit.other [0xC3]]) 1 40 (by decide) (by decide) (by decide) (by decide) (by decide)
      (by decide)).1,
   (emit_i_nif_padding_floor 30 (assemble (BeamModuleAssembler.new 5 3)
      [Emit.aligned_label 1, Emit.i_func_info 1 5 6 0, Emit.aligned_label 2,
        Emit.other [0xC3]]) 1 40 (by decide) (by decide) (by decide) (by decide) (by decide)
      (by decide)).2.1⟩

/-! ## The no-op after an error offset -/

@[simp] theorem a_embed_last_error_offset (s : BeamModuleAssembler) (b : List Nat) :
    (a_embed s b).last_error_offset = s.last_error_offset := by
  unfold a_embed
  cases s.cur <;> rfl

/-- C14: for every opcode the dispatch recognises and every assembler state,
`emit` returns `true` with a state whose current offset is different from
`last_error_offset`: when the opcode's own emission ended exactly at
`last_error_offset`, exactly one one-byte no-op is appended to it, and otherwise
nothing is appended. -/
theorem emit_offset_ne_last_error_offset
    (table : Nat → Option (List ArgVal → BeamModuleAssembler → BeamModuleAssembler))
    (s : BeamModuleAssembler) (specific_op : Nat) (args : List ArgVal)
    (emitter : List ArgVal → BeamModuleAssembler → BeamModuleAssembler)
    (hop : table specific_op = some emitter) :
    ∃ s', emit table s specific_op args = some (s', true) ∧
      getOffset s' ≠ s'.last_error_offset ∧
      (getOffset (emitter args s) = (emitter args s).last_error_offset →
        s' = a_embed (emitter args s) [0x90] ∧ getOffset s' = getOffset (emitter args s) + 1) ∧
      (getOffset (emitter args s) ≠ (emitter args s).last_error_offset →
        s' = emitter args s) := by
  unfold emit
  rw [hop]
  by_cases h : getOffset (emitter args s) = (emitter args s).last_error_offset
  · refine ⟨a_nop (emitter args s), by simp only [h, if_true], ?_, ?_, ?_⟩
    · unfold a_nop getOffset
      rw [a_offset_a_embed, a_embed_last_error_offset, ← h]
      unfold getOffset
      simp
    · intro _
      refine ⟨rfl, ?_⟩
      unfold a_nop getOffset
      rw [a_offset_a_embed]
      rfl
    · intro hne
      exact absurd h hne
  · refine ⟨emitter args s, by simp only [h, if_false], h, ?_, ?_⟩
    · intro heq
      exact absurd heq h
    · intro _
      rfl

/-- Witness for C14: opcode `0` emits the byte `0xC3`; from the empty text
section with `last_error_offset = 1` its emission ends at offset `1`, and `emit`
appends the no-op. -/
theorem emit_offset_ne_last_error_offset_witness :
    ∃ s', emit (fun op => if op = 0 then some (fun _ s => a_embed s [0xC3]) else none)
        { BeamAssembler_init 5 with last_error_offset := 1 } 0 [] = some (s', true) ∧
      getOffset s' ≠ s'.last_error_offset ∧
      s'.code.text = [0xC3, 0x90] :=
  match emit_offset_ne_last_error_offset
      (fun op => if op = 0 then some (fun _ s => a_embed s [0xC3]) else none)
      { BeamAssembler_init 5 with last_error_offset := 1 } 0 []
      (fun _ s => a_embed s [0xC3]) rfl with
  | ⟨s', hrun, hne, hnop, _⟩ =>
    ⟨s', hrun, hne, by rw [(hnop (by decide)).1]; decide⟩

/-! ## String patches -/

/-- On records whose byte offset is `2`, the offset of the immediate of a
`mov`, the loop of `patchStrings` is the loop of the other patch functions. -/
theorem patch_strings_eq_patch_words (DEBUG : Bool) (s : BeamModuleAssembler) (strtab : Nat)
    (ps : List patch) (mem : Mem) (h : ∀ p, p ∈ ps → p.ptr_offs = 2) :
    patch_strings DEBUG s strtab ps mem = patch_words DEBUG s strtab ps mem := by
  induction ps generalizing mem with
  | nil => rfl
  | cons p rest ih =>
    have hloc : patch_location s p = getCodeLabel s p.where_ + 2 := by
      unfold patch_location
      rw [h p (List.mem_cons_self _ _)]
      omega
    rw [patch_strings, patch_words, hloc]
    split
    · rfl
    · exact ih _ (fun q hq => h q (List.mem_cons_of_mem _ hq))

/-- C17: `patchStrings` at a string patch record whose placeholder lies at the
label itself (`ptr_offs = 0`), the label being at address `4096`.  The recorded
location is `4096`, and that is where `patchImport` stores for the same record;
`patchStrings(5000)` stores `5000` at `4096 + 2` instead, so a release build
leaves a word other than `5000` at the recorded location, and a debug build
fails the placeholder check, which it makes at `4096 + 2`. -/
theorem patchStrings_ignores_ptr_offs :
    patch_location
        { BeamAssembler_init 5 with
          code := { baseAddress := 4096, text := le64 LLONG_MAX, rodata := [],
                    labelEntries := [some (SectionId.text, 0)] }
          strings := [{ where_ := some 0, ptr_offs := 0, val_offs := 0 }] }
        { where_ := some 0, ptr_offs := 0, val_offs := 0 } = 4096 ∧
    (patchStrings false
        { BeamAssembler_init 5 with
          code := { baseAddress := 4096, text := le64 LLONG_MAX, rodata := [],
                    labelEntries := [some (SectionId.text, 0)] }
          strings := [{ where_ := some 0, ptr_offs := 0, val_offs := 0 }] }
        (write64 (fun _ => 0) 4096 LLONG_MAX) 5000).map (fun mem' => read64 mem' 4096) ≠
      some 5000 ∧
    (patchStrings false
        { BeamAssembler_init 5 with
          code := { baseAddress := 4096, text := le64 LLONG_MAX, rodata := [],
                    labelEntries := [some (SectionId.text, 0)] }
          strings := [{ where_ := some 0, ptr_offs := 0, val_offs := 0 }] }
        (write64 (fun _ => 0) 4096 LLONG_MAX) 5000).map (fun mem' => read64 mem' (4096 + 2)) =
      some 5000 ∧
    (patchStrings true
        { BeamAssembler_init 5 with
          code := { baseAddress := 4096, text := le64 LLONG_MAX, rodata := [],
                    labelEntries := [some (SectionId.text, 0)] }
          strings := [{ where_ := some 0, ptr_offs := 0, val_offs := 0 }] }
        (write64 (fun _ => 0) 4096 LLONG_MAX) 5000).isNone = true ∧
    (patchImport false
        { BeamAssembler_init 5 with
          code := { baseAddress := 4096, text := le64 LLONG_MAX, rodata := [],
                    labelEntries := [some (SectionId.text, 0)] }
          imports := [(0, [{ where_ := some 0, ptr_offs := 0, val_offs := 0 }])] }
        (write64 (fun _ => 0) 4096 LLONG_MAX) 0 5000).map (fun r => read64 r.2 4096) =
      some 5000 := by
  refine ⟨?_, ?_, ?_, ?_, ?_⟩ <;> decide

end BeamAsm
